import Mathlib

/-!
Shallow embedding of the authorization core of the CommunitySolidServer
repository: the permission-reader pipeline (WebAclReader,
UnionPermissionReader, PathBasedReader, AllStaticReader,
ParentContainerReader, AuxiliaryReader, WebAclAuxiliaryReader) and the
IntermediateModesExtractor, together with proofs about them.

Conventions of the embedding:
* TypeScript `Partial<Record<K, boolean>>` fields become `Option Bool`
  (`none` = key absent or `undefined`).
* `IdentifierMap` (a HashMap keyed by identifier path, insertion ordered,
  `set` replacing in place and appending new keys at the end — the
  semantics of a JavaScript `Map`) becomes an association list
  `List (κ × α)` with `getA`/`setA` below.
* Asynchronous methods become plain functions; external collaborators
  (`AccessChecker`, sub-readers, `ResourceStore`, strategies) become
  function parameters.
-/

set_option autoImplicit false

namespace CSS

/-- Access modes of `Permissions.ts` (`AccessMode`) together with the
WebACL-specific `control` mode of `AclPermission.ts` (`AclMode`), which the
source freely mixes into `AccessMode` sets via casts. -/
inductive Mode where
  | read
  | append
  | write
  | create
  | delete
  | control
deriving DecidableEq, Repr

/-- `Permission` of `Permissions.ts`: `Partial<Record<AccessMode, boolean>>`,
extended with the `control` field of `AclPermission`.  Each field is
tri-state: `none` (no statement), `some true`, `some false`. -/
structure Permission where
  read : Option Bool := none
  append : Option Bool := none
  write : Option Bool := none
  create : Option Bool := none
  delete : Option Bool := none
  control : Option Bool := none
deriving DecidableEq, Repr

/-- Field access of a `Permission` by mode. -/
def Permission.get (p : Permission) : Mode → Option Bool
  | .read => p.read
  | .append => p.append
  | .write => p.write
  | .create => p.create
  | .delete => p.delete
  | .control => p.control

/-- `CredentialGroup` of `Credentials.ts`. -/
inductive CredentialGroup where
  | public
  | agent
deriving DecidableEq, Repr

/-- `PermissionSet` of `Permissions.ts`:
`Partial<Record<CredentialGroup, Permission>>`. -/
structure PermissionSet where
  pub : Option Permission := none
  ag : Option Permission := none
deriving DecidableEq, Repr

/-- Group access of a `PermissionSet`. -/
def PermissionSet.get (ps : PermissionSet) : CredentialGroup → Option Permission
  | .public => ps.pub
  | .agent => ps.ag

/-- A `Credential` of `Credentials.ts`; only its presence matters to the
embedded code, plus the optional WebID used by access checkers. -/
structure Credential where
  webId : Option String := none
deriving DecidableEq, Repr

/-- `CredentialSet` of `Credentials.ts`: an optional credential per group. -/
structure CredentialSet where
  pub : Option Credential := none
  ag : Option Credential := none
deriving DecidableEq, Repr

section AList

variable {κ α : Type} [DecidableEq κ]

/-- Lookup in an association list: the JavaScript `Map.get`. -/
def getA : List (κ × α) → κ → Option α
  | [], _ => none
  | e :: rest, k => if e.1 = k then some e.2 else getA rest k

/-- Update of an association list: the JavaScript `Map.set`, which replaces
the value of an existing key in place (keeping its position in insertion
order) and appends a new key at the end. -/
def setA (m : List (κ × α)) (k : κ) (v : α) : List (κ × α) :=
  if k ∈ m.map Prod.fst then m.map fun e => if e.1 = k then (k, v) else e
  else m ++ [(k, v)]

end AList

/-! ## UnionPermissionReader (`UnionPermissionReader.ts`) -/

namespace UnionReader

/-- The effect of `UnionPermissionReader.applyPermissions` on a single mode
cell: `if (typeof value !== 'undefined' && result[key] !== false)
result[key] = value;` — `value` is the incoming cell, `acc` the accumulated
one. -/
def applyCell (value acc : Option Bool) : Option Bool :=
  match value with
  | none => acc
  | some b => if acc = some false then acc else some b

/-- `UnionPermissionReader.applyPermissions`: merges an incoming
`Permission` (or `undefined`) into the accumulated one (defaulting to `{}`). -/
def applyPermissions (permissions : Option Permission)
    (result : Option Permission) : Permission :=
  match permissions with
  | none => result.getD {}
  | some p =>
    let r := result.getD {}
    { read := applyCell p.read r.read
      append := applyCell p.append r.append
      write := applyCell p.write r.write
      create := applyCell p.create r.create
      delete := applyCell p.delete r.delete
      control := applyCell p.control r.control }

/-- One credential-group slot of the `Object.entries(permissionSet)` loop in
`applyPermissionMap`: groups absent from the incoming set are not visited. -/
def applyGroup (perm : Option Permission) (acc : Option Permission) :
    Option Permission :=
  match perm with
  | none => acc
  | some p => some (applyPermissions (some p) acc)

/-- The per-identifier body of `UnionPermissionReader.applyPermissionMap`:
each group present in the incoming `PermissionSet` is merged into the
accumulated set. -/
def applyPermissionSet (ps : PermissionSet) (acc : PermissionSet) :
    PermissionSet :=
  { pub := applyGroup ps.pub acc.pub
    ag := applyGroup ps.ag acc.ag }

/-- Whether a `PermissionSet` has at least one group entry; when it has
none, the inner loop of `applyPermissionMap` never runs, so no result entry
is created for the identifier. -/
def hasGroup (ps : PermissionSet) : Bool :=
  ps.pub.isSome || ps.ag.isSome

variable {κ : Type} [DecidableEq κ]

/-- Processing of a single `[identifier, permissionSet]` entry by
`UnionPermissionReader.applyPermissionMap`. -/
def applyEntry (e : κ × PermissionSet) (result : List (κ × PermissionSet)) :
    List (κ × PermissionSet) :=
  if hasGroup e.2 then
    setA result e.1 (applyPermissionSet e.2 ((getA result e.1).getD {}))
  else result

/-- `UnionPermissionReader.applyPermissionMap`: applies all entries of one
incoming `PermissionMap` to the accumulated result map. -/
def applyPermissionMap :
    List (κ × PermissionSet) → List (κ × PermissionSet) →
      List (κ × PermissionSet)
  | [], result => result
  | e :: rest, result => applyPermissionMap rest (applyEntry e result)

/-- `UnionPermissionReader.combine`: folds all child results into one map,
starting from the empty `IdentifierMap`. -/
def combine (results : List (List (κ × PermissionSet))) :
    List (κ × PermissionSet) :=
  results.foldl (fun acc m => applyPermissionMap m acc) []

/-- The tri-state value of one (group, mode) cell of a `PermissionSet`. -/
def cellPS (ps : PermissionSet) (g : CredentialGroup) (m : Mode) :
    Option Bool :=
  (ps.get g).bind fun p => p.get m

/-- The tri-state value of one (identifier, group, mode) cell of a
`PermissionMap`. -/
def cellOf (pm : List (κ × PermissionSet)) (k : κ) (g : CredentialGroup)
    (m : Mode) : Option Bool :=
  ((getA pm k).bind fun ps => ps.get g).bind fun p => p.get m

/-- The merge rule as the specification states it: one `false` among the
inputs yields `false`; otherwise any `true` yields `true`; otherwise
`undefined`. -/
def specMerge (l : List (Option Bool)) : Option Bool :=
  if some false ∈ l then some false
  else if some true ∈ l then some true
  else none

end UnionReader

/-! ## WebAclReader (`WebAclReader.ts`): permission evaluation -/

namespace WebAcl

/-- An RDF triple of the internal quad store (`n3.Store`; the graph
component plays no role in the embedded code). -/
structure Triple where
  subj : String
  pred : String
  obj : String
deriving DecidableEq, Repr

/-- The in-memory quad store built by `readableToQuads`. -/
abbrev Store := List Triple

/-- `RDF.type` of `Vocabularies.ts`. -/
def vocabRdfType : String := "http://www.w3.org/1999/02/22-rdf-syntax-ns#type"

/-- `ACL.Authorization` of `Vocabularies.ts`. -/
def vocabAclAuthorization : String := "http://www.w3.org/ns/auth/acl#Authorization"

/-- `ACL.mode` of `Vocabularies.ts`. -/
def vocabAclMode : String := "http://www.w3.org/ns/auth/acl#mode"

/-- `ACL.Read` of `Vocabularies.ts`. -/
def vocabAclRead : String := "http://www.w3.org/ns/auth/acl#Read"

/-- `ACL.Write` of `Vocabularies.ts`. -/
def vocabAclWrite : String := "http://www.w3.org/ns/auth/acl#Write"

/-- `ACL.Append` of `Vocabularies.ts`. -/
def vocabAclAppend : String := "http://www.w3.org/ns/auth/acl#Append"

/-- `ACL.Control` of `Vocabularies.ts`. -/
def vocabAclControl : String := "http://www.w3.org/ns/auth/acl#Control"

/-- `ACL.accessTo` of `Vocabularies.ts`. -/
def vocabAclAccessTo : String := "http://www.w3.org/ns/auth/acl#accessTo"

/-- `ACL.default` of `Vocabularies.ts`. -/
def vocabAclDefault : String := "http://www.w3.org/ns/auth/acl#default"

/-- `store.getSubjects(pred, obj, null)` of an `n3.Store`: the distinct
subjects occurring in a triple with the given predicate and object. -/
def getSubjects (store : Store) (pred obj : String) : List String :=
  ((store.filter fun t => t.pred = pred ∧ t.obj = obj).map Triple.subj).dedup

/-- `store.getObjects(subj, pred, null)` of an `n3.Store`: the objects of
the triples with the given subject and predicate. -/
def getObjects (store : Store) (subj pred : String) : List String :=
  ((store.filter fun t => t.subj = subj ∧ t.pred = pred).map Triple.obj).dedup

/-- The `modesMap` table of `WebAclReader.ts` applied to one `acl:mode`
object: `aclPermissions[mode] = true` for every generic mode the WebACL
mode maps to; an IRI that is not a key of `modesMap` leaves the permission
untouched. -/
def applyAclMode (aclMode : String) (perms : Permission) : Permission :=
  if aclMode = vocabAclRead then { perms with read := some true }
  else if aclMode = vocabAclWrite then
    { perms with append := some true, write := some true }
  else if aclMode = vocabAclAppend then { perms with append := some true }
  else if aclMode = vocabAclControl then { perms with control := some true }
  else perms

/-- The inner loop of `WebAclReader.determinePermissions` over the
`acl:mode` objects of one accepted rule. -/
def applyRuleModes (modes : List String) (perms : Permission) : Permission :=
  modes.foldl (fun p a => applyAclMode a p) perms

/-- `WebAclReader.determinePermissions`: denies everything (empty
permission) when the credential is absent, otherwise accumulates the modes
of every `acl:Authorization` rule accepted by the `AccessChecker`
(abstracted as the pure predicate `checker`, see §4.8.4 of the spec). -/
def determinePermissions (checker : Store → String → Credential → Bool)
    (acl : Store) (credential : Option Credential) : Permission :=
  match credential with
  | none => {}
  | some cred =>
    (getSubjects acl vocabRdfType vocabAclAuthorization).foldl
      (fun perms rule =>
        if checker acl rule cred then
          applyRuleModes (getObjects acl rule vocabAclMode) perms
        else perms) {}

/-- The WebACL → operational mode table as the specification states it:
`acl:Read → read`, `acl:Write → append and write`, `acl:Append → append`,
`acl:Control → control`. -/
def specGrants (aclMode : String) (m : Mode) : Prop :=
  (aclMode = vocabAclRead ∧ m = Mode.read)
  ∨ (aclMode = vocabAclWrite ∧ (m = Mode.append ∨ m = Mode.write))
  ∨ (aclMode = vocabAclAppend ∧ m = Mode.append)
  ∨ (aclMode = vocabAclControl ∧ m = Mode.control)

instance (aclMode : String) (m : Mode) : Decidable (specGrants aclMode m) := by
  unfold specGrants
  infer_instance

end WebAcl

/-! ## PermissionUtil (`permissions/PermissionUtil.ts`) -/

section PermissionUtil

variable {κ : Type} [DecidableEq κ]

/-- `addAccessModes`: adds the modes to the map entry of the identifier,
merging with modes already stored for it. -/
def addAccessModes (identifier : κ) (modes : Finset Mode)
    (accessMap : List (κ × Finset Mode)) : List (κ × Finset Mode) :=
  match getA accessMap identifier with
  | some storedModes => setA accessMap identifier (modes ∪ storedModes)
  | none => setA accessMap identifier modes

/-- `updateAccessMap`: a fresh map holding the entries of `mapEntries`
minus the removed identifiers, with the `add` entries merged in through
`addAccessModes`. -/
def updateAccessMap (add : List (κ × Finset Mode)) (remove : List κ)
    (mapEntries : List (κ × Finset Mode)) : List (κ × Finset Mode) :=
  add.foldl (fun result e => addAccessModes e.1 e.2 result)
    (mapEntries.filter fun e => e.1 ∉ remove)

end PermissionUtil

/-! ## ParentContainerReader (`ParentContainerReader.ts`) -/

namespace ParentReader

/-- JavaScript `&&` on a tri-state left operand: returns the first falsy
operand (`undefined` or `false`), else the right operand. -/
def jsAnd (x y : Option Bool) : Option Bool :=
  match x with
  | none => none
  | some false => some false
  | some true => y

/-- The per-group body of `ParentContainerReader.updatePermission`: for a
group present in the container's set, `permissions.create =
containerPermissions.append && permissions.create !== false` and
`permissions.delete = permissions.write && containerPermissions.write &&
permissions.delete !== false`; a group absent from the container set keeps
the child's permission. -/
def updateGroup (perm : Option Permission) (containerPerm : Option Permission) :
    Option Permission :=
  match containerPerm with
  | none => perm
  | some cp =>
    let p := perm.getD {}
    some { p with
      create := jsAnd cp.append (some (decide ¬(p.create = some false)))
      delete := jsAnd (jsAnd p.write cp.write)
        (some (decide ¬(p.delete = some false))) }

/-- `ParentContainerReader.updatePermission`. -/
def updatePermission (permissionSet containerSet : Option PermissionSet) :
    PermissionSet :=
  let ps := permissionSet.getD {}
  let cs := containerSet.getD {}
  { pub := updateGroup ps.pub cs.pub
    ag := updateGroup ps.ag cs.ag }

/-- `ParentContainerReader.findParents`: for every entry that requires
`create` or `delete`, the parent container with the derived modes
(`create → append`, `delete → write`). -/
def findParents (parentOf : String → String)
    (accessMap : List (String × Finset Mode)) :
    List (String × (String × Finset Mode)) :=
  (accessMap.filter fun e => Mode.create ∈ e.2 ∨ Mode.delete ∈ e.2).map
    fun e =>
      (e.1,
        (parentOf e.1,
          (if Mode.create ∈ e.2 then {Mode.append} else (∅ : Finset Mode)) ∪
            (if Mode.delete ∈ e.2 then {Mode.write} else (∅ : Finset Mode))))

/-- `ParentContainerReader.handle`: the inner reader is the function
`reader`; the parent strategy is `parentOf`. -/
def handle (parentOf : String → String)
    (reader : List (String × Finset Mode) → List (String × PermissionSet))
    (accessMap : List (String × Finset Mode)) :
    List (String × PermissionSet) :=
  let containerMap := findParents parentOf accessMap
  if containerMap.isEmpty then reader accessMap
  else
    let updatedMap := updateAccessMap (containerMap.map fun e => e.2) [] accessMap
    let result := reader updatedMap
    containerMap.foldl
      (fun result e =>
        setA result e.1 (updatePermission (getA result e.1) (getA result e.2.1)))
      result

end ParentReader

/-! ## AllStaticReader (`AllStaticReader.ts`) -/

namespace AllStatic

/-- The frozen permission object built in the `AllStaticReader`
constructor: all five access modes set to `allow`. -/
def constPermission (allow : Bool) : Permission :=
  { read := some allow
    write := some allow
    append := some allow
    create := some allow
    delete := some allow }

/-- `AllStaticReader.mapCredentials`: a fresh `PermissionSet` assigning the
constant permission to every credential group present. -/
def mapCredentials (allow : Bool) (credentials : CredentialSet) :
    PermissionSet :=
  { pub := credentials.pub.map fun _ => constPermission allow
    ag := credentials.ag.map fun _ => constPermission allow }

/-- `AllStaticReader.handle`: one entry per input identifier. -/
def handle (allow : Bool) (credentials : CredentialSet)
    (accessMap : List (String × Finset Mode)) :
    List (String × PermissionSet) :=
  accessMap.map fun e => (e.1, mapCredentials allow credentials)

end AllStatic

/-! ## WebAclAuxiliaryReader (`WebAclAuxiliaryReader.ts`) -/

namespace AclAux

/-- `WebAclAuxiliaryReader.findAcl`: the entries whose identifier the
strategy recognizes as an ACL auxiliary identifier, mapped to their subject
with the single required mode `control`. -/
def findAcl (isAux : String → Bool) (subjectOf : String → String)
    (accessMap : List (String × Finset Mode)) :
    List (String × (String × Finset Mode)) :=
  (accessMap.filter fun e => isAux e.1).map
    fun e => (e.1, (subjectOf e.1, ({Mode.control} : Finset Mode)))

/-- The per-group body of `WebAclAuxiliaryReader.updatePermission`: a group
present in the subject's set gets `{read, append, write, control}` all
equal to the subject's `control` value. -/
def updateGroupAcl (perm : Option Permission) : Option Permission :=
  match perm with
  | none => none
  | some p =>
    some { read := p.control
           append := p.control
           write := p.control
           control := p.control }

/-- `WebAclAuxiliaryReader.updatePermission` (the identifier argument only
feeds logging). -/
def updatePermission (permissionSet : Option PermissionSet) : PermissionSet :=
  let ps := permissionSet.getD {}
  { pub := updateGroupAcl ps.pub
    ag := updateGroupAcl ps.ag }

/-- `WebAclAuxiliaryReader.handle`. -/
def handle (isAux : String → Bool) (subjectOf : String → String)
    (reader : List (String × Finset Mode) → List (String × PermissionSet))
    (accessMap : List (String × Finset Mode)) :
    List (String × PermissionSet) :=
  let aclMap := findAcl isAux subjectOf accessMap
  if aclMap.isEmpty then reader accessMap
  else
    let updatedMap := updateAccessMap (aclMap.map fun e => e.2)
      (aclMap.map fun e => e.1) accessMap
    let result := reader updatedMap
    aclMap.foldl
      (fun result e => setA result e.1 (updatePermission (getA result e.2.1)))
      result

end AclAux

/-! ## PathBasedReader (`PathBasedReader`, unnamed source part_004) -/

namespace PathBased

/-- Modelled from the spec: `trimTrailingSlashes` of `PathUtil.ts` (the
file is not among the staged sources; the spec normalizes the base URL
"with a trailing slash"): removes every trailing slash. -/
def trimTrailingSlashes (s : String) : String :=
  String.mk (s.data.reverse.dropWhile fun c => c = '/').reverse

/-- Modelled from the spec: `ensureTrailingSlash` of `PathUtil.ts` (not in
the staged sources): replaces the run of trailing slashes with exactly
one. -/
def ensureTrailingSlash (s : String) : String :=
  trimTrailingSlashes s ++ "/"

/-- JavaScript `String.prototype.startsWith`, on character data. -/
def strStartsWith (s pre : String) : Bool :=
  pre.data.isPrefixOf s.data

/-- `PathBasedReader.findReader`: a sub-reader is addressed by its index;
a regular expression is abstracted as a `Bool` predicate on the relative
path (the path with the base URL minus its trailing slash sliced off).
Paths outside the base URL get no reader. -/
def findReader (baseUrl : String) (paths : List ((String → Bool) × Nat))
    (path : String) : Option Nat :=
  if strStartsWith path (ensureTrailingSlash baseUrl) then
    (paths.find? fun e =>
      e.1 (path.drop
        (trimTrailingSlashes (ensureTrailingSlash baseUrl)).length)).map
      Prod.snd
  else none

/-- `PathBasedReader.matchReaders`: partitions the access map by the first
matching reader; identifiers with no reader are dropped. -/
def matchReaders (baseUrl : String) (paths : List ((String → Bool) × Nat))
    (accessMap : List (String × Finset Mode)) :
    List (Nat × List (String × Finset Mode)) :=
  accessMap.foldl
    (fun result e =>
      match findReader baseUrl paths e.1 with
      | none => result
      | some i =>
        match getA result i with
        | none => setA result i [(e.1, e.2)]
        | some ms => setA result i (setA ms e.1 e.2))
    []

/-- `PathBasedReader.handle`: every partition goes to its reader; the
returned maps are concatenated into one `IdentifierMap`. -/
def handle (baseUrl : String) (paths : List ((String → Bool) × Nat))
    (readers : Nat → List (String × Finset Mode) → List (String × PermissionSet))
    (accessMap : List (String × Finset Mode)) :
    List (String × PermissionSet) :=
  (List.flatten ((matchReaders baseUrl paths accessMap).map
      fun e => readers e.1 e.2)).foldl
    (fun acc e => setA acc e.1 e.2) []

end PathBased

/-! ## WebAclReader (`WebAclReader.ts`): ACL discovery

Identifiers are embedded as their path-segment lists (the root container is
`[]`), realizing the `IdentifierStrategy` contract: `getParentContainer`
drops the last segment and `isRootContainer` tests for the root.  `pathOf`
renders the container path string, `aclPathOf` the auxiliary ACL identifier
(the `.acl` suffix convention of the spec).  The `ResourceStore` is a
function from ACL paths to either a quad store, `NotFoundHttpError`, or
another error.  Discovery functions also return the list of ACL paths
fetched, instrumenting `ResourceStore.getRepresentation` calls. -/

namespace WebAcl

instance {ε α : Type} [DecidableEq ε] [DecidableEq α] :
    DecidableEq (Except ε α) := fun x y =>
  match x, y with
  | .ok a, .ok b =>
    if h : a = b then isTrue (by rw [h])
    else isFalse fun hc => h (Except.ok.inj hc)
  | .error a, .error b =>
    if h : a = b then isTrue (by rw [h])
    else isFalse fun hc => h (Except.error.inj hc)
  | .ok _, .error _ => isFalse fun hc => Except.noConfusion hc
  | .error _, .ok _ => isFalse fun hc => Except.noConfusion hc

/-- Path rendering of a segment-list identifier: `/a/b/` for `[a, b]`. -/
def pathOf : List String → String
  | [] => "/"
  | s :: rest => "/" ++ s ++ pathOf rest

/-- `AuxiliaryIdentifierStrategy.getAuxiliaryIdentifier`: the ACL resource
of an identifier, by the `.acl` suffix convention of the spec (§3). -/
def aclPathOf (id : List String) : String :=
  pathOf id ++ ".acl"

/-- JavaScript `String.prototype.includes`: substring test on character
data. -/
def jsIncludes (s t : String) : Bool :=
  decide (t.data <:+: s.data)

/-- The store error surface of §6: `NotFoundHttpError` or any other
error. -/
inductive StoreErr where
  | notFound
  | other (msg : String)
deriving DecidableEq, Repr

/-- The errors `WebAclReader` raises during ACL discovery. -/
inductive AclErr where
  | forbidden (msg : String)
  | internal (msg : String) (cause : StoreErr)
deriving DecidableEq, Repr

/-- `WebAclReader.getAclRecursive`, working on the reversed segment list so
that `getParentContainer` is the structural `List.tail`.  Returns the
result (the identifier whose direct ACL was found together with its quad
store, or the raised error) paired with the trace of fetched ACL paths. -/
def getAclRecGo (store : String → Except StoreErr Store) :
    List String → Except AclErr (List String × Store) × List String
  | [] =>
    match store (aclPathOf ([] : List String)) with
    | .ok data => (.ok ([], data), [aclPathOf ([] : List String)])
    | .error (.other msg) =>
      (.error (.internal
          ("Error reading ACL for " ++ pathOf ([] : List String) ++ ": " ++ msg)
          (.other msg)),
        [aclPathOf ([] : List String)])
    | .error .notFound =>
      (.error (.forbidden "No ACL document found for root container"),
        [aclPathOf ([] : List String)])
  | s :: parentRev =>
    match store (aclPathOf (s :: parentRev).reverse) with
    | .ok data =>
      (.ok ((s :: parentRev).reverse, data), [aclPathOf (s :: parentRev).reverse])
    | .error (.other msg) =>
      (.error (.internal
          ("Error reading ACL for " ++ pathOf (s :: parentRev).reverse ++
            ": " ++ msg)
          (.other msg)),
        [aclPathOf (s :: parentRev).reverse])
    | .error .notFound =>
      let r := getAclRecGo store parentRev
      (r.1, aclPathOf (s :: parentRev).reverse :: r.2)

/-- `WebAclReader.getAclRecursive` on identifiers. -/
def getAclRecursive (store : String → Except StoreErr Store)
    (id : List String) :
    Except AclErr (List String × Store) × List String :=
  getAclRecGo store id.reverse

/-- `reduceIterable(targets, (long, id) => id.path.length > long.path.length
? id : long, {path: ''})`: the first target of maximal path length (`none`
for an empty set, whose path-length 0 seed every identifier beats). -/
def longestStep (long : Option (List String)) (id : List String) :
    Option (List String) :=
  match long with
  | none => some id
  | some l =>
    if (pathOf l).length < (pathOf id).length then some id else some l

/-- The fold of `longestStep` over the target set, seeded with the
`{path: ''}` sentinel (`none`). -/
def longestOf (targets : List (List String)) : Option (List String) :=
  targets.foldl longestStep none

/-- The claim predicate of the `getAclMatches` loop body: the target's path
is a substring of the longest path and at least as long as the path of the
identifier whose ACL was found. -/
def claimedBy (longest aid t : List String) : Bool :=
  jsIncludes (pathOf longest) (pathOf t) &&
    decide ((pathOf aid).length ≤ (pathOf t).length)

/-- `WebAclReader.getAclMatches`, fueled: the loop claims at least one
target per iteration, so fuel `targets.length` suffices (proved in
`getAclMatchesGo_isSome`); `none` means the fuel ran out. -/
def getAclMatchesGo (store : String → Except StoreErr Store) :
    Nat → List (List String) →
      Option (Except AclErr
          (List ((List String × Store) × List (List String))) ×
        List String)
  | _, [] => some (.ok [], [])
  | 0, _ :: _ => none
  | fuel + 1, t :: ts =>
    match longestOf (t :: ts) with
    | none => some (.ok [], [])
    | some longest =>
      let r := getAclRecGo store longest.reverse
      match r.1 with
      | .error e => some (.error e, r.2)
      | .ok (aid, s) =>
        let claimed := (t :: ts).filter fun x => claimedBy longest aid x
        let remaining := (t :: ts).filter fun x => !claimedBy longest aid x
        match getAclMatchesGo store fuel remaining with
        | none => none
        | some rest =>
          match rest.1 with
          | .error e => some (.error e, r.2 ++ rest.2)
          | .ok ms => some (.ok (((aid, s), claimed) :: ms), r.2 ++ rest.2)

/-- `WebAclReader.getAclMatches` with its sufficient fuel. -/
def getAclMatches (store : String → Except StoreErr Store)
    (targets : List (List String)) :
    Option (Except AclErr
        (List ((List String × Store) × List (List String))) ×
      List String) :=
  getAclMatchesGo store targets.length targets

/-- `WebAclReader.filterStore`: the triples of all subjects that carry
`acl:accessTo` (direct) or `acl:default` (indirect) pointing at the
target path. -/
def filterStore (store : Store) (target : String) (directAcl : Bool) :
    Store :=
  (getSubjects store (if directAcl then vocabAclAccessTo else vocabAclDefault)
      target).foldl
    (fun acc subj => acc ++ store.filter fun tr => tr.subj = subj) []

/-- `WebAclReader.filterAclMap`: splits each matched target list into
direct and indirect targets and filters the store for each nonempty side. -/
def filterAclMap
    (m : List ((List String × Store) × List (List String))) :
    List (Store × List (List String)) :=
  m.foldl
    (fun result e =>
      let direct := e.2.filter fun x => pathOf x = pathOf e.1.1
      let indirect := e.2.filter fun x => !decide (pathOf x = pathOf e.1.1)
      let result' :=
        if direct.isEmpty then result
        else result ++ [(filterStore e.1.2 (pathOf e.1.1) true, direct)]
      if indirect.isEmpty then result'
      else result' ++ [(filterStore e.1.2 (pathOf e.1.1) false, indirect)])
    []

/-- `WebAclReader.findPermissions`: every claimed identifier of a store
gets the `public` and `agent` permissions computed from it. -/
def findPermissions (checker : Store → String → Credential → Bool)
    (aclMap : List (Store × List (List String)))
    (credentials : CredentialSet) : List (String × PermissionSet) :=
  aclMap.foldl
    (fun result e =>
      let publicPermissions := determinePermissions checker e.1 credentials.pub
      let agentPermissions := determinePermissions checker e.1 credentials.ag
      e.2.foldl
        (fun result id =>
          setA result (pathOf id)
            { pub := some publicPermissions, ag := some agentPermissions })
        result)
    []

/-- `WebAclReader.handle` (`none` only if discovery fuel ran out, which
`getAclMatchesGo_isSome` rules out). -/
def handle (store : String → Except StoreErr Store)
    (checker : Store → String → Credential → Bool)
    (credentials : CredentialSet)
    (accessMap : List (List String × Finset Mode)) :
    Option (Except AclErr (List (String × PermissionSet))) :=
  match getAclMatches store (accessMap.map Prod.fst) with
  | none => none
  | some (.error e, _) => some (.error e)
  | some (.ok aclMap, _) =>
    some (.ok (findPermissions checker (filterAclMap aclMap) credentials))

end WebAcl

/-! ## IntermediateModesExtractor (`WebAclReader.ts`, second part)

Identifiers are the segment lists of the WebAcl section;
`getParentContainer` is `List.dropLast`, `ResourceSet.hasResource` the
predicate `hasRes`.  Modelled from the spec: the `IdentifierMap` iteration
(`HashMap.ts` is not among the staged sources) follows JavaScript `Map`
semantics — insertion order, entries appended during iteration are
visited, values are read at visit time, and `set` on an existing key keeps
its position.  The loop is therefore a worklist over the map with a
visiting index; it carries fuel, and `imeGo_isSome` shows the fuel chosen
by `intermediateModes` never runs out. -/

namespace IME

/-- One pass of the `for (const [key, modes] of accessMap)` loop of
`IntermediateModesExtractor.handle`, at visiting index `i`. -/
def imeGo (hasRes : List String → Bool) :
    Nat → List (List String × Finset Mode) → Nat →
      Option (List (List String × Finset Mode))
  | 0, am, i => if am.length ≤ i then some am else none
  | fuel + 1, am, i =>
    match am[i]? with
    | none => some am
    | some e =>
      if Mode.create ∈ e.2 then
        if hasRes e.1.dropLast then imeGo hasRes fuel am (i + 1)
        else
          imeGo hasRes fuel
            (addAccessModes e.1.dropLast {Mode.create} am) (i + 1)
      else imeGo hasRes fuel am (i + 1)

/-- The fuel bound: total weight of the entries not yet visited; every
iteration decreases it. -/
def imeMeasure (am : List (List String × Finset Mode)) (i : Nat) : Nat :=
  ((am.drop i).map fun e => e.1.length + 1).sum

/-- `IntermediateModesExtractor.handle` (after the source extractor
returned `am`). -/
def intermediateModes (hasRes : List String → Bool)
    (am : List (List String × Finset Mode)) :
    Option (List (List String × Finset Mode)) :=
  imeGo hasRes (imeMeasure am 0) am 0

end IME

/-! # Part 2: lemmas and claim theorems -/

section AList

variable {κ α : Type} [DecidableEq κ]

theorem getA_eq_none {m : List (κ × α)} {k : κ} (h : k ∉ m.map Prod.fst) :
    getA m k = none := by
  induction m with
  | nil => rfl
  | cons e rest ih =>
    simp only [List.map_cons, List.mem_cons] at h
    push_neg at h
    simp [getA, Ne.symm h.1, ih h.2]

theorem getA_isSome_of_mem {m : List (κ × α)} {k : κ}
    (h : k ∈ m.map Prod.fst) : (getA m k).isSome := by
  induction m with
  | nil => simp at h
  | cons e rest ih =>
    by_cases he : e.1 = k
    · simp [getA, he]
    · simp only [List.map_cons, List.mem_cons] at h
      rcases h with h | h

      · exact absurd h.symm he
      · simp [getA, he, ih h]

theorem getA_setA_self {m : List (κ × α)} {k : κ} {v : α} :
    getA (setA m k v) k = some v := by
  unfold setA
  split
  · rename_i hmem
    induction m with
    | nil => simp at hmem
    | cons e rest ih =>
      by_cases he : e.1 = k
      · simp [getA, he]
      · simp only [List.map_cons, List.mem_cons] at hmem
        rcases hmem with h | h
        · exact absurd h.symm he
        · simpa [getA, he] using ih h
  · induction m with
    | nil => simp [getA]
    | cons e rest ih =>
      rename_i hmem
      simp only [List.map_cons, List.mem_cons] at hmem
      push_neg at hmem
      simpa [getA, Ne.symm hmem.1] using ih hmem.2

theorem getA_map_update {m : List (κ × α)} {k k' : κ} {v : α} (h : k' ≠ k) :
    getA (m.map fun e => if e.1 = k then (k, v) else e) k' = getA m k' := by
  induction m with
  | nil => rfl
  | cons e rest ih =>
    by_cases he : e.1 = k
    · simp [getA, he, Ne.symm h, ih]
    · simp [getA, he, ih]

theorem getA_append_single {m : List (κ × α)} {k k' : κ} {v : α} (h : k' ≠ k) :
    getA (m ++ [(k, v)]) k' = getA m k' := by
  induction m with
  | nil => simp [getA, Ne.symm h]
  | cons e rest ih => simp [getA, ih]

theorem getA_setA_ne {m : List (κ × α)} {k k' : κ} {v : α} (h : k' ≠ k) :
    getA (setA m k v) k' = getA m k' := by
  unfold setA
  split
  · exact getA_map_update h
  · exact getA_append_single h

theorem keys_setA (m : List (κ × α)) (k : κ) (v : α) :
    (setA m k v).map Prod.fst =
      if k ∈ m.map Prod.fst then m.map Prod.fst else m.map Prod.fst ++ [k] := by
  unfold setA
  split
  · rename_i hmem
    simp only [hmem, if_true, List.map_map]
    apply List.map_congr_left
    intro e _
    by_cases he : e.1 = k <;> simp [he]
  · rename_i hmem
    simp [hmem]

theorem mem_keys_setA {m : List (κ × α)} {k k' : κ} {v : α} :
    k' ∈ (setA m k v).map Prod.fst ↔ k' ∈ m.map Prod.fst ∨ k' = k := by
  rw [keys_setA]
  split <;> rename_i hmem
  · constructor
    · exact fun h => Or.inl h
    · rintro (h | rfl)
      · exact h
      · exact hmem
  · simp


theorem mem_setA {m : List (κ × α)} {k : κ} {v : α} {p : κ × α}
    (h : p ∈ setA m k v) : p ∈ m ∨ p = (k, v) := by
  unfold setA at h
  split at h
  · obtain ⟨e, he, hfe⟩ := List.mem_map.mp h
    by_cases hek : e.1 = k
    · rw [if_pos hek] at hfe
      exact Or.inr hfe.symm
    · rw [if_neg hek] at hfe
      exact Or.inl (hfe ▸ he)
  · rcases List.mem_append.mp h with h' | h'
    · exact Or.inl h'
    · exact Or.inr (List.mem_singleton.mp h')

theorem getA_buildFold_not_mem (l : List (κ × α)) (acc : List (κ × α))
    (k : κ) (h : k ∉ l.map Prod.fst) :
    getA (l.foldl (fun acc e => setA acc e.1 e.2) acc) k = getA acc k := by
  induction l generalizing acc with
  | nil => rfl
  | cons e rest ih =>
    simp only [List.map_cons, List.mem_cons, not_or] at h
    rw [List.foldl_cons, ih _ h.2, getA_setA_ne h.1]

theorem keys_setFold_iff {β : Type} (l : List β) (key : β → κ)
    (v : List (κ × α) → β → α) (acc : List (κ × α)) (p : κ) :
    p ∈ ((l.foldl (fun acc e => setA acc (key e) (v acc e)) acc).map
      Prod.fst)
    ↔ p ∈ acc.map Prod.fst ∨ ∃ e ∈ l, p = key e := by
  induction l generalizing acc with
  | nil => simp
  | cons e rest ih =>
    rw [List.foldl_cons, ih]
    simp only [mem_keys_setA, List.mem_cons]
    constructor
    · rintro ((h | h) | ⟨x, hx, rfl⟩)
      · exact Or.inl h
      · exact Or.inr ⟨e, Or.inl rfl, h⟩
      · exact Or.inr ⟨x, Or.inr hx, rfl⟩
    · rintro (h | ⟨x, (rfl | hx), rfl⟩)
      · exact Or.inl (Or.inl h)
      · exact Or.inl (Or.inr rfl)
      · exact Or.inr ⟨x, hx, rfl⟩

theorem keys_setFoldConst_iff {β : Type} (l : List β) (key : β → κ)
    (V : α) (acc : List (κ × α)) (p : κ) :
    p ∈ ((l.foldl (fun acc e => setA acc (key e) V) acc).map Prod.fst)
    ↔ p ∈ acc.map Prod.fst ∨ ∃ e ∈ l, p = key e :=
  keys_setFold_iff l key (fun _ _ => V) acc p

theorem setFoldConst_values {β : Type} (l : List β) (key : β → κ) (V : α)
    (acc : List (κ × α)) (P : κ × α → Prop)
    (hacc : ∀ en ∈ acc, P en) (hV : ∀ k, P (k, V)) :
    ∀ en ∈ l.foldl (fun acc e => setA acc (key e) V) acc, P en := by
  induction l generalizing acc with
  | nil => exact hacc
  | cons b rest ih =>
    rw [List.foldl_cons]
    exact ih _ fun en hen =>
      (mem_setA hen).elim (hacc en) fun he => he ▸ hV (key b)

theorem mem_of_getA {m : List (κ × α)} {k : κ} {v : α}
    (h : getA m k = some v) : (k, v) ∈ m := by
  induction m with
  | nil => simp [getA] at h
  | cons e rest ih =>
    obtain ⟨k', v'⟩ := e
    rw [getA] at h
    split at h
    · rename_i he
      injection h with h2
      subst h2
      simp only at he
      subst he
      exact List.mem_cons_self _ _
    · exact List.mem_cons_of_mem _ (ih h)

theorem getA_eq_of_mem_nodup {m : List (κ × α)} {k : κ} {v : α}
    (hmem : (k, v) ∈ m) (hnd : (m.map Prod.fst).Nodup) :
    getA m k = some v := by
  induction m with
  | nil => simp at hmem
  | cons e rest ih =>
    simp only [List.map_cons, List.nodup_cons] at hnd
    rcases List.mem_cons.mp hmem with heq | hmem'
    · rw [← heq, getA, if_pos rfl]
    · have hne : e.1 ≠ k := by
        intro hcon
        apply hnd.1
        rw [hcon]
        exact List.mem_map.mpr ⟨(k, v), hmem', rfl⟩
      rw [getA, if_neg hne]
      exact ih hmem' hnd.2

end AList

namespace UnionReader

variable {κ : Type} [DecidableEq κ]

theorem permGet_applyPermissions (p : Permission) (acc : Option Permission)
    (m : Mode) :
    (applyPermissions (some p) acc).get m =
      applyCell (p.get m) (acc.bind fun q => q.get m) := by
  cases acc <;> cases m <;> rfl

theorem cellPS_applyPermissionSet (ps acc : PermissionSet)
    (g : CredentialGroup) (m : Mode) :
    cellPS (applyPermissionSet ps acc) g m =
      applyCell (cellPS ps g m) (cellPS acc g m) := by
  cases g
  · cases hp : ps.pub with
    | none =>
      simp [cellPS, applyPermissionSet, PermissionSet.get, applyGroup, hp,
        applyCell]
    | some p =>
      simp [cellPS, applyPermissionSet, PermissionSet.get, applyGroup, hp,
        permGet_applyPermissions]
  · cases ha : ps.ag with
    | none =>
      simp [cellPS, applyPermissionSet, PermissionSet.get, applyGroup, ha,
        applyCell]
    | some p =>
      simp [cellPS, applyPermissionSet, PermissionSet.get, applyGroup, ha,
        permGet_applyPermissions]

theorem cellPS_empty (g : CredentialGroup) (m : Mode) :
    cellPS {} g m = none := by
  cases g <;> rfl

theorem cellOf_eq_cellPS (res : List (κ × PermissionSet)) (k : κ)
    (g : CredentialGroup) (m : Mode) :
    cellOf res k g m = cellPS ((getA res k).getD {}) g m := by
  cases h : getA res k
  · simp [cellOf, h, cellPS_empty]
  · simp [cellOf, h, cellPS]

theorem cellOf_applyEntry (e : κ × PermissionSet)
    (result : List (κ × PermissionSet)) (k : κ) (g : CredentialGroup)
    (m : Mode) :
    cellOf (applyEntry e result) k g m =
      if e.1 = k then applyCell (cellPS e.2 g m) (cellOf result k g m)
      else cellOf result k g m := by
  unfold applyEntry
  by_cases hg : hasGroup e.2
  · rw [if_pos hg]
    by_cases hk : e.1 = k
    · subst hk
      rw [cellOf_eq_cellPS, getA_setA_self, if_pos rfl, Option.getD_some,
        cellPS_applyPermissionSet, ← cellOf_eq_cellPS]
    · rw [if_neg hk, cellOf_eq_cellPS, getA_setA_ne (Ne.symm hk),
        ← cellOf_eq_cellPS]
  · have hg2 : ¬(e.2.pub.isSome = true ∨ e.2.ag.isSome = true) := by
      simpa [hasGroup, Bool.or_eq_true] using hg
    push_neg at hg2
    have hpub : e.2.pub = none :=
      Option.not_isSome_iff_eq_none.mp (by simpa using hg2.1)
    have hag : e.2.ag = none :=
      Option.not_isSome_iff_eq_none.mp (by simpa using hg2.2)
    have hb : cellPS e.2 g m = none := by
      cases g <;> simp [cellPS, PermissionSet.get, hpub, hag]
    rw [if_neg hg, hb]
    split <;> rfl

theorem cellOf_cons (e : κ × PermissionSet) (rest : List (κ × PermissionSet))
    (k : κ) (g : CredentialGroup) (m : Mode) :
    cellOf (e :: rest) k g m =
      if e.1 = k then cellPS e.2 g m else cellOf rest k g m := by
  simp only [cellOf, getA, cellPS]
  split <;> simp

theorem cellOf_applyPermissionMap_not_mem (pm result : List (κ × PermissionSet))
    (k : κ) (g : CredentialGroup) (m : Mode) (h : k ∉ pm.map Prod.fst) :
    cellOf (applyPermissionMap pm result) k g m = cellOf result k g m := by
  induction pm generalizing result with
  | nil => rfl
  | cons e rest ih =>
    simp only [List.map_cons, List.mem_cons, not_or] at h
    rw [applyPermissionMap, ih _ h.2, cellOf_applyEntry, if_neg (Ne.symm h.1)]

theorem cellOf_applyPermissionMap (pm result : List (κ × PermissionSet))
    (k : κ) (g : CredentialGroup) (m : Mode)
    (hnd : (pm.map Prod.fst).Nodup) :
    cellOf (applyPermissionMap pm result) k g m =
      applyCell (cellOf pm k g m) (cellOf result k g m) := by
  induction pm generalizing result with
  | nil => simp [applyPermissionMap, cellOf, getA, applyCell]
  | cons e rest ih =>
    simp only [List.map_cons, List.nodup_cons] at hnd
    rw [applyPermissionMap, cellOf_cons]
    by_cases hk : e.1 = k
    · subst hk
      rw [if_pos rfl, cellOf_applyPermissionMap_not_mem _ _ _ _ _ hnd.1,
        cellOf_applyEntry, if_pos rfl]
    · rw [if_neg hk, ih _ hnd.2, cellOf_applyEntry, if_neg hk]

theorem cellOf_combine_aux (results : List (List (κ × PermissionSet)))
    (acc : List (κ × PermissionSet)) (k : κ) (g : CredentialGroup) (m : Mode)
    (hnd : ∀ r ∈ results, (r.map Prod.fst).Nodup) :
    cellOf (results.foldl (fun acc m => applyPermissionMap m acc) acc) k g m =
      results.foldl (fun c r => applyCell (cellOf r k g m) c)
        (cellOf acc k g m) := by
  induction results generalizing acc with
  | nil => rfl
  | cons r rest ih =>
    simp only [List.foldl_cons]
    rw [ih _ (fun r hr => hnd r (List.mem_cons_of_mem _ hr)),
      cellOf_applyPermissionMap _ _ _ _ _ (hnd r (List.mem_cons_self _ _))]

theorem applyCell_acc_false (v : Option Bool) :
    applyCell v (some false) = some false := by
  cases v <;> rfl

theorem foldl_applyCell_false (l : List (Option Bool)) :
    l.foldl (fun c v => applyCell v c) (some false) = some false := by
  induction l with
  | nil => rfl
  | cons v l ih => rw [List.foldl_cons, applyCell_acc_false, ih]

theorem foldl_applyCell_true (l : List (Option Bool)) :
    l.foldl (fun c v => applyCell v c) (some true) =
      if some false ∈ l then some false else some true := by
  induction l with
  | nil => rfl
  | cons v l ih =>
    rw [List.foldl_cons]
    match v with
    | none =>
      rw [show applyCell none (some true) = some true from rfl, ih]
      simp
    | some true =>
      rw [show applyCell (some true) (some true) = some true from rfl, ih]
      simp
    | some false =>
      rw [show applyCell (some false) (some true) = some false from rfl,
        foldl_applyCell_false]
      simp

theorem foldl_applyCell_none (l : List (Option Bool)) :
    l.foldl (fun c v => applyCell v c) none = specMerge l := by
  induction l with
  | nil => rfl
  | cons v l ih =>
    rw [List.foldl_cons]
    match v with
    | none =>
      rw [show applyCell none none = none from rfl, ih]
      simp [specMerge]
    | some true =>
      rw [show applyCell (some true) none = some true from rfl,
        foldl_applyCell_true]
      simp [specMerge]
    | some false =>
      rw [show applyCell (some false) none = some false from rfl,
        foldl_applyCell_false]
      simp [specMerge]


end UnionReader

namespace WebAcl

theorem permGet_empty (m : Mode) : ({} : Permission).get m = none := by
  cases m <;> rfl

theorem applyAclMode_get (a : String) (p : Permission) (m : Mode) :
    (applyAclMode a p).get m =
      if specGrants a m then some true else p.get m := by
  have hrw : vocabAclRead ≠ vocabAclWrite := by decide
  have hra : vocabAclRead ≠ vocabAclAppend := by decide
  have hrc : vocabAclRead ≠ vocabAclControl := by decide
  have hwa : vocabAclWrite ≠ vocabAclAppend := by decide
  have hwc : vocabAclWrite ≠ vocabAclControl := by decide
  have hac : vocabAclAppend ≠ vocabAclControl := by decide
  unfold applyAclMode
  by_cases h1 : a = vocabAclRead
  · subst h1
    rw [if_pos rfl]
    cases m <;> simp [Permission.get, specGrants, hrw, hra, hrc]
  · rw [if_neg h1]
    by_cases h2 : a = vocabAclWrite
    · subst h2
      rw [if_pos rfl]
      cases m <;>
        simp [Permission.get, specGrants, Ne.symm hrw, hwa, hwc]
    · rw [if_neg h2]
      by_cases h3 : a = vocabAclAppend
      · subst h3
        rw [if_pos rfl]
        cases m <;>
          simp [Permission.get, specGrants, Ne.symm hra, Ne.symm hwa, hac]
      · rw [if_neg h3]
        by_cases h4 : a = vocabAclControl
        · subst h4
          rw [if_pos rfl]
          cases m <;>
            simp [Permission.get, specGrants, Ne.symm hrc, Ne.symm hwc,
              Ne.symm hac]
        · rw [if_neg h4]
          simp [specGrants, h1, h2, h3, h4]

theorem applyRuleModes_get (modes : List String) (p : Permission) (m : Mode) :
    (applyRuleModes modes p).get m =
      if ∃ a ∈ modes, specGrants a m then some true else p.get m := by
  induction modes generalizing p with
  | nil => simp [applyRuleModes]
  | cons a rest ih =>
    have hstep : applyRuleModes (a :: rest) p =
        applyRuleModes rest (applyAclMode a p) := rfl
    rw [hstep, ih, applyAclMode_get]
    by_cases hg : specGrants a m
    · have hex : ∃ x ∈ a :: rest, specGrants x m :=
        ⟨a, List.mem_cons_self _ _, hg⟩
      rw [if_pos hex]
      split <;> simp [hg]
    · have hiff : (∃ x ∈ a :: rest, specGrants x m) ↔
          ∃ x ∈ rest, specGrants x m := by
        constructor
        · rintro ⟨x, hx, hgx⟩
          rcases List.mem_cons.mp hx with rfl | hx'
          · exact absurd hgx hg
          · exact ⟨x, hx', hgx⟩
        · rintro ⟨x, hx, hgx⟩
          exact ⟨x, List.mem_cons_of_mem _ hx, hgx⟩
      rw [if_neg hg]
      split <;> rename_i h
      · rw [if_pos (hiff.mpr h)]
      · rw [if_neg (fun hc => h (hiff.mp hc))]

theorem rulesFold_get (checker : Store → String → Credential → Bool)
    (acl : Store) (cred : Credential) (rules : List String) (p : Permission)
    (m : Mode) :
    (rules.foldl
        (fun perms rule =>
          if checker acl rule cred then
            applyRuleModes (getObjects acl rule vocabAclMode) perms
          else perms) p).get m =
      if ∃ rule ∈ rules, checker acl rule cred = true ∧
          ∃ a ∈ getObjects acl rule vocabAclMode, specGrants a m
      then some true else p.get m := by
  induction rules generalizing p with
  | nil => simp
  | cons r rest ih =>
    rw [List.foldl_cons, ih]
    by_cases hc : checker acl r cred = true
    · rw [if_pos hc, applyRuleModes_get]
      by_cases hg : ∃ a ∈ getObjects acl r vocabAclMode, specGrants a m
      · have hex : ∃ rule ∈ r :: rest, checker acl rule cred = true ∧
            ∃ a ∈ getObjects acl rule vocabAclMode, specGrants a m :=
          ⟨r, List.mem_cons_self _ _, hc, hg⟩
        rw [if_pos hex, if_pos hg]
        split <;> rfl
      · have hiff : (∃ rule ∈ r :: rest, checker acl rule cred = true ∧
            ∃ a ∈ getObjects acl rule vocabAclMode, specGrants a m) ↔
            ∃ rule ∈ rest, checker acl rule cred = true ∧
              ∃ a ∈ getObjects acl rule vocabAclMode, specGrants a m := by
          constructor
          · rintro ⟨x, hx, hcx, hgx⟩
            rcases List.mem_cons.mp hx with rfl | hx'
            · exact absurd hgx hg
            · exact ⟨x, hx', hcx, hgx⟩
          · rintro ⟨x, hx, hcx, hgx⟩
            exact ⟨x, List.mem_cons_of_mem _ hx, hcx, hgx⟩
        rw [if_neg hg]
        split <;> rename_i h
        · rw [if_pos (hiff.mpr h)]
        · rw [if_neg (fun hcon => h (hiff.mp hcon))]
    · have hiff : (∃ rule ∈ r :: rest, checker acl rule cred = true ∧
          ∃ a ∈ getObjects acl rule vocabAclMode, specGrants a m) ↔
          ∃ rule ∈ rest, checker acl rule cred = true ∧
            ∃ a ∈ getObjects acl rule vocabAclMode, specGrants a m := by
        constructor
        · rintro ⟨x, hx, hcx, hgx⟩
          rcases List.mem_cons.mp hx with rfl | hx'
          · exact absurd hcx hc
          · exact ⟨x, hx', hcx, hgx⟩
        · rintro ⟨x, hx, hcx, hgx⟩
          exact ⟨x, List.mem_cons_of_mem _ hx, hcx, hgx⟩
      rw [if_neg hc]
      split <;> rename_i h
      · rw [if_pos (hiff.mpr h)]
      · rw [if_neg (fun hcon => h (hiff.mp hcon))]

theorem determinePermissions_get (checker : Store → String → Credential → Bool)
    (acl : Store) (cred : Credential) (m : Mode) :
    (determinePermissions checker acl (some cred)).get m =
      if ∃ rule ∈ getSubjects acl vocabRdfType vocabAclAuthorization,
          checker acl rule cred = true ∧
            ∃ a ∈ getObjects acl rule vocabAclMode, specGrants a m
      then some true else none := by
  unfold determinePermissions
  rw [rulesFold_get, permGet_empty]

end WebAcl

/-- C1: `WebAclReader.determinePermissions` returns the empty permission
when the group's credential is absent; otherwise a mode is `true` exactly
when some `acl:Authorization` rule accepted by the `AccessChecker` carries
an `acl:mode` object granting it per the `modesMap` table (`acl:Read →
read`, `acl:Write → append, write`, `acl:Append → append`, `acl:Control →
control`, unrecognized IRIs ignored); no mode is ever `false`. -/
theorem C1_webacl_modes (checker : WebAcl.Store → String → Credential → Bool)
    (acl : WebAcl.Store) :
    WebAcl.determinePermissions checker acl none = {}
    ∧ (∀ (cred : Credential) (m : Mode),
        (WebAcl.determinePermissions checker acl (some cred)).get m
            = some true ↔
          ∃ rule ∈ WebAcl.getSubjects acl WebAcl.vocabRdfType
              WebAcl.vocabAclAuthorization,
            checker acl rule cred = true ∧
              ∃ a ∈ WebAcl.getObjects acl rule WebAcl.vocabAclMode,
                WebAcl.specGrants a m)
    ∧ (∀ (credential : Option Credential) (m : Mode),
        (WebAcl.determinePermissions checker acl credential).get m
          ≠ some false) := by
  refine ⟨rfl, ?_, ?_⟩
  · intro cred m
    rw [WebAcl.determinePermissions_get]
    split <;> rename_i h
    · simpa using h
    · simpa using h
  · intro credential m
    cases credential with
    | none =>
      rw [show WebAcl.determinePermissions checker acl none = {} from rfl,
        WebAcl.permGet_empty]
      simp
    | some cred =>
      rw [WebAcl.determinePermissions_get]
      split <;> simp

/-- C2: `UnionPermissionReader` merges any list of `PermissionMap`s per
(identifier, credential group, mode) by the rule: any `false` among the
inputs gives `false`; otherwise any `true` gives `true`; otherwise
`undefined`.  The binary merge is commutative, associative, has `undefined`
(`none`) as identity and `false` as absorbing element, so the combined map
is independent of the order of the child results. -/
theorem C2_union_merge :
    (∀ (results : List (List (String × PermissionSet))) (k : String)
        (g : CredentialGroup) (m : Mode),
        (∀ r ∈ results, (r.map Prod.fst).Nodup) →
        UnionReader.cellOf (UnionReader.combine results) k g m =
          UnionReader.specMerge (results.map fun r => UnionReader.cellOf r k g m))
    ∧ (∀ a b, UnionReader.applyCell a b = UnionReader.applyCell b a)
    ∧ (∀ a b c,
        UnionReader.applyCell c (UnionReader.applyCell b a) =
          UnionReader.applyCell (UnionReader.applyCell c b) a)
    ∧ (∀ a, UnionReader.applyCell a none = a ∧ UnionReader.applyCell none a = a)
    ∧ (∀ a, UnionReader.applyCell a (some false) = some false ∧
        UnionReader.applyCell (some false) a = some false)
    ∧ (∀ (results results' : List (List (String × PermissionSet))),
        results.Perm results' →
        (∀ r ∈ results, (r.map Prod.fst).Nodup) →
        ∀ (k : String) (g : CredentialGroup) (m : Mode),
          UnionReader.cellOf (UnionReader.combine results) k g m =
            UnionReader.cellOf (UnionReader.combine results') k g m) := by
  have hmain : ∀ (results : List (List (String × PermissionSet))) (k : String)
      (g : CredentialGroup) (m : Mode),
      (∀ r ∈ results, (r.map Prod.fst).Nodup) →
      UnionReader.cellOf (UnionReader.combine results) k g m =
        UnionReader.specMerge
          (results.map fun r => UnionReader.cellOf r k g m) := by
    intro results k g m hnd
    rw [UnionReader.combine, UnionReader.cellOf_combine_aux _ _ _ _ _ hnd]
    have hnil : UnionReader.cellOf ([] : List (String × PermissionSet)) k g m
        = none := rfl
    rw [hnil, ← List.foldl_map (fun r => UnionReader.cellOf r k g m)
      (fun c v => UnionReader.applyCell v c),
      UnionReader.foldl_applyCell_none]
  refine ⟨hmain, by decide, by decide, by decide, by decide, ?_⟩
  intro results results' hperm hnd k g m
  have hnd' : ∀ r ∈ results', (r.map Prod.fst).Nodup := fun r hr =>
    hnd r (hperm.mem_iff.mpr hr)
  rw [hmain results k g m hnd, hmain results' k g m hnd']
  have hp : (results.map fun r => UnionReader.cellOf r k g m).Perm
      (results'.map fun r => UnionReader.cellOf r k g m) := hperm.map _
  unfold UnionReader.specMerge
  simp only [List.Perm.mem_iff hp]

section PermissionUtilLemmas

variable {κ α : Type} [DecidableEq κ]

theorem getA_addAccessModes_ne {m : List (κ × Finset Mode)} {i k : κ}
    {mds : Finset Mode} (h : k ≠ i) :
    getA (addAccessModes i mds m) k = getA m k := by
  unfold addAccessModes
  split <;> exact getA_setA_ne h

theorem getA_addAccessModes_self (m : List (κ × Finset Mode)) (i : κ)
    (mds : Finset Mode) :
    getA (addAccessModes i mds m) i = some (mds ∪ (getA m i).getD ∅) := by
  unfold addAccessModes
  split <;> rename_i h
  · rw [getA_setA_self, h]
    rfl
  · rw [getA_setA_self, h]
    simp

theorem getA_addFold_not_mem (add : List (κ × Finset Mode))
    (base : List (κ × Finset Mode)) (k : κ) (h : k ∉ add.map Prod.fst) :
    getA (add.foldl (fun r e => addAccessModes e.1 e.2 r) base) k =
      getA base k := by
  induction add generalizing base with
  | nil => rfl
  | cons e rest ih =>
    simp only [List.map_cons, List.mem_cons, not_or] at h
    rw [List.foldl_cons, ih _ h.2, getA_addAccessModes_ne h.1]

theorem getA_addFold_const (add : List (κ × Finset Mode))
    (base : List (κ × Finset Mode)) (s : κ) (v : Finset Mode)
    (hall : ∀ e ∈ add, e.1 = s → e.2 = v) (hmem : s ∈ add.map Prod.fst) :
    getA (add.foldl (fun r e => addAccessModes e.1 e.2 r) base) s =
      some (v ∪ (getA base s).getD ∅) := by
  induction add generalizing base with
  | nil => simp at hmem
  | cons e rest ih =>
    rw [List.foldl_cons]
    by_cases he : e.1 = s
    · have hev : e.2 = v := hall e (List.mem_cons_self _ _) he
      have hself : getA (addAccessModes e.1 e.2 base) s =
          some (v ∪ (getA base s).getD ∅) := by
        rw [← he, getA_addAccessModes_self, hev]
      by_cases hs : s ∈ rest.map Prod.fst
      · rw [ih _ (fun x hx hxs => hall x (List.mem_cons_of_mem _ hx) hxs) hs,
          hself]
        simp [← Finset.union_assoc]
      · rw [getA_addFold_not_mem _ _ _ hs, hself]
    · have hmem' : s ∈ rest.map Prod.fst := by
        rcases List.mem_cons.mp hmem with h | h
        · exact absurd h.symm he
        · exact h
      rw [ih _ (fun x hx hxs => hall x (List.mem_cons_of_mem _ hx) hxs) hmem',
        getA_addAccessModes_ne (fun hc => he hc.symm)]

theorem getA_filterKey_true {m : List (κ × α)} {q : κ → Bool} {k : κ}
    (hq : q k = true) :
    getA (m.filter fun e => q e.1) k = getA m k := by
  induction m with
  | nil => rfl
  | cons e rest ih =>
    rw [List.filter_cons]
    by_cases he : e.1 = k
    · rw [he, hq]
      simp only [if_true]
      rw [getA, if_pos he, getA, if_pos he]
    · cases hqe : q e.1
      · simp only [Bool.false_eq_true, if_false]
        rw [ih, getA, if_neg he]
      · simp only [if_true]
        rw [getA, if_neg he, ih, getA, if_neg he]

theorem getA_filterKey_false {m : List (κ × α)} {q : κ → Bool} {k : κ}
    (hq : q k = false) :
    getA (m.filter fun e => q e.1) k = none := by
  induction m with
  | nil => rfl
  | cons e rest ih =>
    rw [List.filter_cons]
    cases hqe : q e.1
    · simp only [Bool.false_eq_true, if_false]
      exact ih
    · have he : e.1 ≠ k := by
        intro hc
        rw [hc, hq] at hqe
        exact Bool.false_ne_true hqe
      simp only [if_true]
      rw [getA, if_neg he]
      exact ih

end PermissionUtilLemmas

namespace WebAcl

theorem getAclRecGo_classify (store : String → Except StoreErr Store) :
    ∀ rev : List String,
      (∃ m, (getAclRecGo store rev).1 = .ok m)
      ∨ ((getAclRecGo store rev).1 =
            .error (.forbidden "No ACL document found for root container")
          ∧ store (aclPathOf []) = .error .notFound)
      ∨ (∃ anc msg,
          (getAclRecGo store rev).1 =
            .error (.internal
              ("Error reading ACL for " ++ pathOf anc ++ ": " ++ msg)
              (.other msg))
          ∧ store (aclPathOf anc) = .error (.other msg)) := by
  intro rev
  induction rev with
  | nil =>
    unfold getAclRecGo
    cases hs : store (aclPathOf ([] : List String)) with
    | ok data => exact Or.inl ⟨([], data), rfl⟩
    | error err =>
      cases err with
      | notFound => exact Or.inr (Or.inl ⟨rfl, rfl⟩)
      | other msg => exact Or.inr (Or.inr ⟨[], msg, rfl, hs⟩)
  | cons s parentRev ih =>
    unfold getAclRecGo
    cases hs : store (aclPathOf (s :: parentRev).reverse) with
    | ok data => exact Or.inl ⟨((s :: parentRev).reverse, data), rfl⟩
    | error err =>
      cases err with
      | other msg =>
        exact Or.inr (Or.inr ⟨(s :: parentRev).reverse, msg, rfl, hs⟩)
      | notFound =>
        rcases ih with ⟨m, hm⟩ | ⟨hm, hroot⟩ | ⟨anc, msg, hm, hsa⟩
        · exact Or.inl ⟨m, hm⟩
        · exact Or.inr (Or.inl ⟨hm, hroot⟩)
        · exact Or.inr (Or.inr ⟨anc, msg, hm, hsa⟩)

theorem pathOf_length (l : List String) :
    (pathOf l).length = 1 + (l.map fun s => s.length + 1).sum := by
  induction l with
  | nil => rfl
  | cons s rest ih =>
    simp only [pathOf, String.length_append, ih, List.map_cons,
      List.sum_cons]
    have h1 : ("/" : String).length = 1 := rfl
    omega

theorem pathOf_append_single (x : List String) (s : String) :
    (pathOf (x ++ [s])).length = (pathOf x).length + s.length + 1 := by
  rw [pathOf_length, pathOf_length, List.map_append, List.sum_append]
  simp
  omega

theorem aclPathOf_length (id : List String) :
    (aclPathOf id).length = (pathOf id).length + 4 := by
  unfold aclPathOf
  rw [String.length_append]
  rfl

theorem getAclRecGo_ok_length (store : String → Except StoreErr Store) :
    ∀ (rev : List String) (aid : List String) (s : Store),
      (getAclRecGo store rev).1 = .ok (aid, s) →
      (pathOf aid).length ≤ (pathOf rev.reverse).length := by
  intro rev
  induction rev with
  | nil =>
    intro aid s h
    unfold getAclRecGo at h
    revert h
    cases hs : store (aclPathOf ([] : List String)) with
    | ok data =>
      intro h
      injection h with h'
      injection h' with h1 h2
      subst h1
      exact Nat.le_refl _
    | error err =>
      cases err <;> (intro h; exact Except.noConfusion h)
  | cons s' parentRev ih =>
    intro aid s h
    unfold getAclRecGo at h
    revert h
    cases hs : store (aclPathOf (s' :: parentRev).reverse) with
    | ok data =>
      intro h
      injection h with h'
      injection h' with h1 h2
      subst h1
      exact Nat.le_refl _
    | error err =>
      cases err with
      | other msg => intro h; exact Except.noConfusion h
      | notFound =>
        intro h
        have hle := ih aid s h
        rw [List.reverse_cons, pathOf_append_single]
        omega

theorem getAclRecGo_trace_le (store : String → Except StoreErr Store) :
    ∀ rev : List String, ∀ p ∈ (getAclRecGo store rev).2,
      p.length ≤ (aclPathOf rev.reverse).length := by
  intro rev
  induction rev with
  | nil =>
    intro p hp
    unfold getAclRecGo at hp
    revert hp
    cases hs : store (aclPathOf ([] : List String)) with
    | ok data =>
      intro hp
      rw [List.mem_singleton.mp hp]
      exact Nat.le_refl _
    | error err =>
      cases err <;>
        · intro hp
          rw [List.mem_singleton.mp hp]
          exact Nat.le_refl _
  | cons s' parentRev ih =>
    intro p hp
    unfold getAclRecGo at hp
    revert hp
    cases hs : store (aclPathOf (s' :: parentRev).reverse) with
    | ok data =>
      intro hp
      rw [List.mem_singleton.mp hp]
    | error err =>
      cases err with
      | other msg =>
        intro hp
        rw [List.mem_singleton.mp hp]
      | notFound =>
        intro hp
        rcases List.mem_cons.mp hp with rfl | hp'
        · exact Nat.le_refl _
        · have h1 := ih p hp'
          have h2 : (pathOf (s' :: parentRev).reverse).length =
              (pathOf parentRev.reverse).length + s'.length + 1 := by
            rw [List.reverse_cons, pathOf_append_single]
          rw [aclPathOf_length] at h1 ⊢
          omega

theorem foldl_longestStep_some (ts : List (List String)) :
    ∀ x : List String, ∃ y, ts.foldl longestStep (some x) = some y ∧
      (y = x ∨ y ∈ ts) := by
  induction ts with
  | nil => intro x; exact ⟨x, rfl, Or.inl rfl⟩
  | cons t ts ih =>
    intro x
    rw [List.foldl_cons]
    by_cases h : (pathOf x).length < (pathOf t).length
    · rw [show longestStep (some x) t = some t by simp [longestStep, h]]
      obtain ⟨y, hy, hmem⟩ := ih t
      refine ⟨y, hy, ?_⟩
      rcases hmem with rfl | hmem
      · exact Or.inr (List.mem_cons_self _ _)
      · exact Or.inr (List.mem_cons_of_mem _ hmem)
    · rw [show longestStep (some x) t = some x by simp [longestStep, h]]
      obtain ⟨y, hy, hmem⟩ := ih x
      refine ⟨y, hy, ?_⟩
      rcases hmem with rfl | hmem
      · exact Or.inl rfl
      · exact Or.inr (List.mem_cons_of_mem _ hmem)

theorem longestOf_cons_some (t : List String) (ts : List (List String)) :
    ∃ y, longestOf (t :: ts) = some y ∧ y ∈ t :: ts := by
  unfold longestOf
  rw [List.foldl_cons,
    show longestStep none t = some t from rfl]
  obtain ⟨y, hy, hmem⟩ := foldl_longestStep_some ts t
  refine ⟨y, hy, ?_⟩
  rcases hmem with rfl | hmem
  · exact List.mem_cons_self _ _
  · exact List.mem_cons_of_mem _ hmem

theorem claimedBy_self (store : String → Except StoreErr Store)
    (longest aid : List String) (s : Store)
    (hok : (getAclRecGo store longest.reverse).1 = .ok (aid, s)) :
    claimedBy longest aid longest = true := by
  unfold claimedBy
  have h1 : jsIncludes (pathOf longest) (pathOf longest) = true :=
    decide_eq_true (List.infix_refl _)
  have h2 := getAclRecGo_ok_length store longest.reverse aid s hok
  rw [List.reverse_reverse] at h2
  simp [h1, h2]

theorem length_filter_lt {α : Type} (l : List α) (p : α → Bool) (a : α)
    (ha : a ∈ l) (hpa : p a = false) : (l.filter p).length < l.length := by
  induction l with
  | nil => simp at ha
  | cons x xs ih =>
    rw [List.filter_cons]
    rcases List.mem_cons.mp ha with rfl | ha'
    · rw [hpa]
      simp only [Bool.false_eq_true, if_false, List.length_cons]
      exact Nat.lt_succ_of_le (List.length_filter_le _ _)
    · cases hpx : p x
      · simp only [Bool.false_eq_true, if_false, List.length_cons]
        exact Nat.lt_succ_of_lt (ih ha')
      · simp only [if_true, List.length_cons]
        exact Nat.succ_lt_succ (ih ha')

theorem mem_filter_partition {α : Type} (l : List α) (p : α → Bool) (x : α) :
    x ∈ l ↔ x ∈ l.filter p ∨ x ∈ l.filter fun a => !p a := by
  constructor
  · intro h
    cases hp : p x
    · exact Or.inr (List.mem_filter.mpr ⟨h, by rw [hp]; rfl⟩)
    · exact Or.inl (List.mem_filter.mpr ⟨h, hp⟩)
  · rintro (h | h)
    · exact (List.mem_filter.mp h).1
    · exact (List.mem_filter.mp h).1

theorem getAclMatchesGo_isSome (store : String → Except StoreErr Store) :
    ∀ (fuel : Nat) (targets : List (List String)), targets.length ≤ fuel →
      (getAclMatchesGo store fuel targets).isSome := by
  intro fuel
  induction fuel with
  | zero =>
    intro targets h
    have : targets = [] := List.eq_nil_of_length_eq_zero (Nat.le_zero.mp h)
    subst this
    rfl
  | succ fuel ih =>
    intro targets h
    match targets with
    | [] => rfl
    | t :: ts =>
      unfold getAclMatchesGo
      obtain ⟨longest, hlg, hmem⟩ := longestOf_cons_some t ts
      rw [hlg]
      dsimp only
      cases hr : (getAclRecGo store longest.reverse).1 with
      | error e => rfl
      | ok m =>
        obtain ⟨aid, s⟩ := m
        dsimp only
        have hcl : claimedBy longest aid longest = true :=
          claimedBy_self store longest aid s hr
        have hlt : ((t :: ts).filter fun x => !claimedBy longest aid x).length
            < (t :: ts).length :=
          length_filter_lt _ _ longest hmem (by rw [hcl]; rfl)
        have hx := ih ((t :: ts).filter fun x => !claimedBy longest aid x)
          (by
            have := List.length_cons t ts ▸ h
            omega)
        obtain ⟨rest, hrest⟩ := Option.isSome_iff_exists.mp hx
        rw [hrest]
        obtain ⟨r1, r2⟩ := rest
        cases r1 <;> rfl

theorem getAclMatchesGo_ok_mem (store : String → Except StoreErr Store) :
    ∀ (fuel : Nat) (targets : List (List String))
      (ms : List ((List String × Store) × List (List String)))
      (tr : List String),
      getAclMatchesGo store fuel targets = some (.ok ms, tr) →
      ∀ x, (∃ e ∈ ms, x ∈ e.2) ↔ x ∈ targets := by
  intro fuel
  induction fuel with
  | zero =>
    intro targets ms tr h x
    match targets with
    | [] =>
      rw [show getAclMatchesGo store 0 ([] : List (List String)) =
        some (.ok [], []) from rfl] at h
      simp only [Option.some.injEq, Prod.mk.injEq, Except.ok.injEq] at h
      obtain ⟨h1, -⟩ := h
      subst h1
      simp
    | t :: ts =>
      rw [show getAclMatchesGo store 0 (t :: ts) = none from rfl] at h
      exact Option.noConfusion h
  | succ fuel ih =>
    intro targets ms tr h x
    match targets with
    | [] =>
      rw [show getAclMatchesGo store (fuel + 1) ([] : List (List String)) =
        some (.ok [], []) from rfl] at h
      simp only [Option.some.injEq, Prod.mk.injEq, Except.ok.injEq] at h
      obtain ⟨h1, -⟩ := h
      subst h1
      simp
    | t :: ts =>
      unfold getAclMatchesGo at h
      obtain ⟨longest, hlg, hmem⟩ := longestOf_cons_some t ts
      rw [hlg] at h
      dsimp only at h
      revert h
      cases hr : (getAclRecGo store longest.reverse).1 with
      | error e =>
        intro h
        simp only [Option.some.injEq, Prod.mk.injEq] at h
        exact absurd h.1 (fun hc => Except.noConfusion hc)
      | ok m =>
        obtain ⟨aid, s⟩ := m
        dsimp only
        cases hin : getAclMatchesGo store fuel
            ((t :: ts).filter fun y => !claimedBy longest aid y) with
        | none => intro h; exact Option.noConfusion h
        | some rest =>
          obtain ⟨r1, r2⟩ := rest
          cases r1 with
          | error e =>
            intro h
            simp only [Option.some.injEq, Prod.mk.injEq] at h
            exact absurd h.1 (fun hc => Except.noConfusion hc)
          | ok ms2 =>
            intro h
            simp only [Option.some.injEq, Prod.mk.injEq,
              Except.ok.injEq] at h
            obtain ⟨h1, -⟩ := h
            subst h1
            have hihx := ih _ _ _ hin x
            constructor
            · rintro ⟨e, he, hxe⟩
              rcases List.mem_cons.mp he with rfl | he2
              · exact (List.mem_filter.mp hxe).1
              · exact (List.mem_filter.mp (hihx.mp ⟨e, he2, hxe⟩)).1
            · intro hx
              rcases (mem_filter_partition (t :: ts)
                  (fun y => claimedBy longest aid y) x).mp hx with hc | hc
              · exact ⟨((aid, s),
                  (t :: ts).filter fun y => claimedBy longest aid y),
                  List.mem_cons_self _ _, hc⟩
              · obtain ⟨e, he, hxe⟩ := hihx.mpr hc
                exact ⟨e, List.mem_cons_of_mem _ he, hxe⟩

theorem exists_mem_append_single {α : Type}
    (P : α → Prop) (l : List α) (E : α) :
    (∃ p ∈ l ++ [E], P p) ↔ (∃ p ∈ l, P p) ∨ P E := by
  constructor
  · rintro ⟨p, hp, hxp⟩
    rcases List.mem_append.mp hp with h | h
    · exact Or.inl ⟨p, h, hxp⟩
    · rw [List.mem_singleton.mp h] at hxp
      exact Or.inr hxp
  · rintro (⟨p, hp, hxp⟩ | h)
    · exact ⟨p, List.mem_append_left _ hp, hxp⟩
    · exact ⟨E, List.mem_append_right _ (List.mem_singleton_self _), h⟩

theorem filterAclMap_step_mem (x : List String)
    (acc : List (Store × List (List String)))
    (e : (List String × Store) × List (List String)) :
    (∃ p ∈ (
      let direct := e.2.filter fun y => pathOf y = pathOf e.1.1
      let indirect := e.2.filter fun y => !decide (pathOf y = pathOf e.1.1)
      let result' :=
        if direct.isEmpty then acc
        else acc ++ [(filterStore e.1.2 (pathOf e.1.1) true, direct)]
      if indirect.isEmpty then result'
      else result' ++ [(filterStore e.1.2 (pathOf e.1.1) false, indirect)]),
      x ∈ p.2)
    ↔ (∃ p ∈ acc, x ∈ p.2) ∨ x ∈ e.2 := by
  have hpart := mem_filter_partition e.2
    (fun y => decide (pathOf y = pathOf e.1.1)) x
  dsimp only
  by_cases hd : (e.2.filter fun y => decide (pathOf y = pathOf e.1.1)).isEmpty
  · by_cases hi : (e.2.filter
        fun y => !decide (pathOf y = pathOf e.1.1)).isEmpty
    · rw [if_pos hd, if_pos hi]
      constructor
      · exact Or.inl
      · rintro (h | h)
        · exact h
        · rcases hpart.mp h with hc | hc
          · rw [List.isEmpty_iff.mp hd] at hc
            exact absurd hc (List.not_mem_nil x)
          · rw [List.isEmpty_iff.mp hi] at hc
            exact absurd hc (List.not_mem_nil x)
    · rw [if_pos hd, if_neg hi, exists_mem_append_single]
      constructor
      · rintro (h | h)
        · exact Or.inl h
        · exact Or.inr ((List.mem_filter.mp h).1)
      · rintro (h | h)
        · exact Or.inl h
        · rcases hpart.mp h with hc | hc
          · rw [List.isEmpty_iff.mp hd] at hc
            exact absurd hc (List.not_mem_nil x)
          · exact Or.inr hc
  · by_cases hi : (e.2.filter
        fun y => !decide (pathOf y = pathOf e.1.1)).isEmpty
    · rw [if_pos hi, if_neg hd, exists_mem_append_single]
      constructor
      · rintro (h | h)
        · exact Or.inl h
        · exact Or.inr ((List.mem_filter.mp h).1)
      · rintro (h | h)
        · exact Or.inl h
        · rcases hpart.mp h with hc | hc
          · exact Or.inr hc
          · rw [List.isEmpty_iff.mp hi] at hc
            exact absurd hc (List.not_mem_nil x)
    · rw [if_neg hi, if_neg hd, exists_mem_append_single,
        exists_mem_append_single]
      constructor
      · rintro ((h | h) | h)
        · exact Or.inl h
        · exact Or.inr ((List.mem_filter.mp h).1)
        · exact Or.inr ((List.mem_filter.mp h).1)
      · rintro (h | h)
        · exact Or.inl (Or.inl h)
        · rcases hpart.mp h with hc | hc
          · exact Or.inl (Or.inr hc)
          · exact Or.inr hc

theorem filterAclMap_mem (x : List String)
    (m : List ((List String × Store) × List (List String))) :
    (∃ e ∈ filterAclMap m, x ∈ e.2) ↔ ∃ e ∈ m, x ∈ e.2 := by
  suffices h : ∀ (m : List ((List String × Store) × List (List String)))
      (acc : List (Store × List (List String))),
      (∃ e ∈ m.foldl (fun result e =>
          let direct := e.2.filter fun y => pathOf y = pathOf e.1.1
          let indirect :=
            e.2.filter fun y => !decide (pathOf y = pathOf e.1.1)
          let result' :=
            if direct.isEmpty then result
            else result ++ [(filterStore e.1.2 (pathOf e.1.1) true, direct)]
          if indirect.isEmpty then result'
          else result' ++
            [(filterStore e.1.2 (pathOf e.1.1) false, indirect)]) acc,
        x ∈ e.2)
      ↔ (∃ e ∈ acc, x ∈ e.2) ∨ (∃ e ∈ m, x ∈ e.2) by
    rw [show filterAclMap m = m.foldl (fun result e =>
        let direct := e.2.filter fun y => pathOf y = pathOf e.1.1
        let indirect :=
          e.2.filter fun y => !decide (pathOf y = pathOf e.1.1)
        let result' :=
          if direct.isEmpty then result
          else result ++ [(filterStore e.1.2 (pathOf e.1.1) true, direct)]
        if indirect.isEmpty then result'
        else result' ++
          [(filterStore e.1.2 (pathOf e.1.1) false, indirect)]) []
      from rfl, h]
    simp
  intro m
  induction m with
  | nil => intro acc; simp
  | cons e rest ih =>
    intro acc
    rw [List.foldl_cons, ih, filterAclMap_step_mem]
    constructor
    · rintro ((h | h) | h)
      · exact Or.inl h
      · exact Or.inr ⟨e, List.mem_cons_self _ _, h⟩
      · obtain ⟨e2, he2, hx2⟩ := h
        exact Or.inr ⟨e2, List.mem_cons_of_mem _ he2, hx2⟩
    · rintro (h | ⟨e2, he2, hx2⟩)
      · exact Or.inl (Or.inl h)
      · rcases List.mem_cons.mp he2 with rfl | he2'
        · exact Or.inl (Or.inr hx2)
        · exact Or.inr ⟨e2, he2', hx2⟩

theorem findPermissions_keys (checker : Store → String → Credential → Bool)
    (aclMap : List (Store × List (List String)))
    (creds : CredentialSet) (p : String) :
    p ∈ (findPermissions checker aclMap creds).map Prod.fst ↔
      ∃ e ∈ aclMap, ∃ id ∈ e.2, p = pathOf id := by
  suffices h : ∀ (m : List (Store × List (List String)))
      (acc : List (String × PermissionSet)),
      p ∈ (m.foldl (fun result e =>
        let publicPermissions :=
          determinePermissions checker e.1 creds.pub
        let agentPermissions := determinePermissions checker e.1 creds.ag
        e.2.foldl
          (fun result id =>
            setA result (pathOf id)
              { pub := some publicPermissions, ag := some agentPermissions })
          result) acc).map Prod.fst
      ↔ p ∈ acc.map Prod.fst ∨ ∃ e ∈ m, ∃ id ∈ e.2, p = pathOf id by
    rw [show findPermissions checker aclMap creds = aclMap.foldl
        (fun result e =>
          let publicPermissions :=
            determinePermissions checker e.1 creds.pub
          let agentPermissions :=
            determinePermissions checker e.1 creds.ag
          e.2.foldl
            (fun result id =>
              setA result (pathOf id)
                { pub := some publicPermissions
                  ag := some agentPermissions })
            result) [] from rfl, h]
    simp
  intro m
  induction m with
  | nil => intro acc; simp
  | cons e rest ih =>
    intro acc
    rw [List.foldl_cons, ih]
    dsimp only
    rw [keys_setFoldConst_iff e.2 pathOf
      { pub := some (determinePermissions checker e.1 creds.pub)
        ag := some (determinePermissions checker e.1 creds.ag) } acc p]
    constructor
    · rintro ((h | ⟨id, hid, rfl⟩) | ⟨e2, he2, id, hid, rfl⟩)
      · exact Or.inl h
      · exact Or.inr ⟨e, List.mem_cons_self _ _, id, hid, rfl⟩
      · exact Or.inr ⟨e2, List.mem_cons_of_mem _ he2, id, hid, rfl⟩
    · rintro (h | ⟨e2, he2, id, hid, rfl⟩)
      · exact Or.inl (Or.inl h)
      · rcases List.mem_cons.mp he2 with rfl | he2'
        · exact Or.inl (Or.inr ⟨id, hid, rfl⟩)
        · exact Or.inr ⟨e2, he2', id, hid, rfl⟩

theorem findPermissions_values
    (checker : Store → String → Credential → Bool)
    (aclMap : List (Store × List (List String))) (creds : CredentialSet) :
    ∀ en ∈ findPermissions checker aclMap creds,
      en.2.pub.isSome ∧ en.2.ag.isSome := by
  suffices h : ∀ (m : List (Store × List (List String)))
      (acc : List (String × PermissionSet)),
      (∀ en ∈ acc, en.2.pub.isSome ∧ en.2.ag.isSome) →
      ∀ en ∈ m.foldl (fun result e =>
        let publicPermissions :=
          determinePermissions checker e.1 creds.pub
        let agentPermissions := determinePermissions checker e.1 creds.ag
        e.2.foldl
          (fun result id =>
            setA result (pathOf id)
              { pub := some publicPermissions, ag := some agentPermissions })
          result) acc,
        en.2.pub.isSome ∧ en.2.ag.isSome by
    exact h aclMap [] (by simp)
  intro m
  induction m with
  | nil => intro acc hacc; exact hacc
  | cons e rest ih =>
    intro acc hacc
    rw [List.foldl_cons]
    apply ih
    exact setFoldConst_values e.2 pathOf
      { pub := some (determinePermissions checker e.1 creds.pub)
        ag := some (determinePermissions checker e.1 creds.ag) } acc
      (fun en => en.2.pub.isSome ∧ en.2.ag.isSome) hacc
      (fun k => by simp)

theorem getAclRecGo_trace_nodup (store : String → Except StoreErr Store) :
    ∀ rev : List String, (getAclRecGo store rev).2.Nodup := by
  intro rev
  induction rev with
  | nil =>
    unfold getAclRecGo
    cases store (aclPathOf ([] : List String)) with
    | ok data => exact List.nodup_singleton _
    | error err => cases err <;> exact List.nodup_singleton _
  | cons s' parentRev ih =>
    unfold getAclRecGo
    cases store (aclPathOf (s' :: parentRev).reverse) with
    | ok data => exact List.nodup_singleton _
    | error err =>
      cases err with
      | other msg => exact List.nodup_singleton _
      | notFound =>
        refine List.nodup_cons.mpr ⟨?_, ih⟩
        intro hc
        have h1 := getAclRecGo_trace_le store parentRev _ hc
        rw [aclPathOf_length, aclPathOf_length, List.reverse_cons,
          pathOf_append_single] at h1
        omega

end WebAcl

/-- C5: during ACL discovery a `NotFoundHttpError` from the store is never
surfaced (it only causes traversal to the parent container): every
discovery outcome is either a found ACL match, or the
`ForbiddenHttpError "No ACL document found for root container"` raised
exactly when the root container's ACL is also missing, or an
`InternalServerError` with message `Error reading ACL for {path}: {cause}`
carrying the original non-NotFound store error as its cause.  These are
the only error kinds. -/
theorem C5_discovery_errors (store : String → Except WebAcl.StoreErr WebAcl.Store)
    (id : List String) :
    (∃ m, (WebAcl.getAclRecursive store id).1 = .ok m)
    ∨ ((WebAcl.getAclRecursive store id).1 =
          .error (.forbidden "No ACL document found for root container")
        ∧ store (WebAcl.aclPathOf []) = .error .notFound)
    ∨ (∃ anc msg,
        (WebAcl.getAclRecursive store id).1 =
          .error (.internal
            ("Error reading ACL for " ++ WebAcl.pathOf anc ++ ": " ++ msg)
            (.other msg))
        ∧ store (WebAcl.aclPathOf anc) = .error (.other msg)) :=
  WebAcl.getAclRecGo_classify store id.reverse

/-- C6: `WebAclReader.handle` terminates for every input access map (the
discovery loop claims at least the longest remaining target each
iteration, so fuel equal to the target count never runs out), and on
success returns a `PermissionMap` whose key set is exactly the key set of
the input access map, every claimed target receiving a verdict for both
the `public` and `agent` credential groups. -/
theorem C6_webacl_handle (store : String → Except WebAcl.StoreErr WebAcl.Store)
    (checker : WebAcl.Store → String → Credential → Bool)
    (credentials : CredentialSet)
    (accessMap : List (List String × Finset Mode)) :
    (WebAcl.handle store checker credentials accessMap).isSome
    ∧ ∀ result,
        WebAcl.handle store checker credentials accessMap
          = some (.ok result) →
        (∀ p, p ∈ result.map Prod.fst ↔
          ∃ id ∈ accessMap.map Prod.fst, p = WebAcl.pathOf id)
        ∧ ∀ e ∈ result, e.2.pub.isSome ∧ e.2.ag.isSome := by
  constructor
  · unfold WebAcl.handle WebAcl.getAclMatches
    have h := WebAcl.getAclMatchesGo_isSome store
      (accessMap.map Prod.fst).length (accessMap.map Prod.fst)
      (Nat.le_refl _)
    obtain ⟨r, hr⟩ := Option.isSome_iff_exists.mp h
    rw [hr]
    obtain ⟨r1, r2⟩ := r
    cases r1 <;> rfl
  · intro result hres
    unfold WebAcl.handle WebAcl.getAclMatches at hres
    revert hres
    cases hm : WebAcl.getAclMatchesGo store
        (accessMap.map Prod.fst).length (accessMap.map Prod.fst) with
    | none => intro hres; exact Option.noConfusion hres
    | some r =>
      obtain ⟨r1, r2⟩ := r
      cases r1 with
      | error e =>
        intro hres
        simp only [Option.some.injEq] at hres
        exact absurd hres (fun hc => Except.noConfusion hc)
      | ok aclMap2 =>
        intro hres
        simp only [Option.some.injEq, Except.ok.injEq] at hres
        subst hres
        constructor
        · intro p
          rw [WebAcl.findPermissions_keys]
          constructor
          · rintro ⟨e, he, id, hid, rfl⟩
            have hidt : id ∈ accessMap.map Prod.fst :=
              (WebAcl.getAclMatchesGo_ok_mem store _ _ _ _ hm id).mp
                ((WebAcl.filterAclMap_mem id aclMap2).mp ⟨e, he, hid⟩)
            exact ⟨id, hidt, rfl⟩
          · rintro ⟨id, hid, rfl⟩
            have hidm : ∃ e ∈ WebAcl.filterAclMap aclMap2, id ∈ e.2 :=
              (WebAcl.filterAclMap_mem id aclMap2).mpr
                ((WebAcl.getAclMatchesGo_ok_mem store _ _ _ _ hm id).mpr hid)
            obtain ⟨e, he, hide⟩ := hidm
            exact ⟨e, he, id, hide, rfl⟩
        · exact WebAcl.findPermissions_values checker
            (WebAcl.filterAclMap aclMap2) credentials

/-- Witness for C6 at a concrete input: a single target `/a/` inheriting
read access from the root ACL by `acl:default`; the output map has key
`/a/` — the image of the single input key — and both credential-group
verdicts present. -/
theorem C6_webacl_handle_witness :
    ("/a/" ∈ ([("/a/",
        ({ pub := some { read := some true }, ag := some {} } :
          PermissionSet))] : List (String × PermissionSet)).map Prod.fst
      ↔ ∃ id ∈ ([(["a"], ({Mode.read} : Finset Mode))] :
          List (List String × Finset Mode)).map Prod.fst,
        "/a/" = WebAcl.pathOf id) :=
  ((C6_webacl_handle
    (fun p =>
      if p = "/.acl" then
        Except.ok ([⟨"#auth", WebAcl.vocabRdfType, WebAcl.vocabAclAuthorization⟩,
          ⟨"#auth", WebAcl.vocabAclDefault, "/"⟩,
          ⟨"#auth", WebAcl.vocabAclMode, WebAcl.vocabAclRead⟩] : WebAcl.Store)
      else Except.error WebAcl.StoreErr.notFound)
    (fun _ _ _ => true)
    { pub := some {}, ag := none }
    [(["a"], ({Mode.read} : Finset Mode))]).2
    [("/a/",
      ({ pub := some { read := some true }, ag := some {} } : PermissionSet))]
    (by decide)).1 "/a/"

namespace IME

theorem imeMeasure_pos {am : List (List String × Finset Mode)} {i : Nat}
    (h : i < am.length) : 1 ≤ imeMeasure am i := by
  unfold imeMeasure
  rw [List.drop_eq_getElem_cons h]
  simp only [List.map_cons, List.sum_cons]
  omega

theorem imeMeasure_succ {am : List (List String × Finset Mode)} {i : Nat}
    (h : i < am.length) :
    imeMeasure am i = (am[i].1.length + 1) + imeMeasure am (i + 1) := by
  unfold imeMeasure
  rw [List.drop_eq_getElem_cons h, List.map_cons, List.sum_cons]

theorem imeMeasure_setA_mem (am : List (List String × Finset Mode))
    (k : List String) (v : Finset Mode) (i : Nat)
    (hmem : k ∈ am.map Prod.fst) :
    imeMeasure (setA am k v) i = imeMeasure am i := by
  unfold imeMeasure setA
  rw [if_pos hmem, ← List.map_drop, List.map_map]
  congr 1
  apply List.map_congr_left
  intro e _
  by_cases he : e.1 = k
  · simp [he]
  · simp [he]

theorem imeMeasure_append (am : List (List String × Finset Mode))
    (x : List String × Finset Mode) (i : Nat) (h : i ≤ am.length) :
    imeMeasure (am ++ [x]) i = imeMeasure am i + (x.1.length + 1) := by
  unfold imeMeasure
  rw [List.drop_append_of_le_length h]
  simp

theorem imeMeasure_addAccessModes (am : List (List String × Finset Mode))
    (k : List String) (v : Finset Mode) (i : Nat) (h : i ≤ am.length) :
    imeMeasure (addAccessModes k v am) i ≤
      imeMeasure am i + (k.length + 1) := by
  unfold addAccessModes
  cases hg : getA am k with
  | some stored =>
    have hmem : k ∈ am.map Prod.fst := by
      by_contra hc
      rw [getA_eq_none hc] at hg
      exact Option.noConfusion hg
    rw [imeMeasure_setA_mem am k _ i hmem]
    omega
  | none =>
    have hmem : k ∉ am.map Prod.fst := by
      intro hc
      have := getA_isSome_of_mem hc
      rw [hg] at this
      exact Bool.noConfusion this
    unfold setA
    rw [if_neg hmem, imeMeasure_append am (k, v) i h]

theorem length_addAccessModes (am : List (List String × Finset Mode))
    (k : List String) (v : Finset Mode) :
    am.length ≤ (addAccessModes k v am).length := by
  unfold addAccessModes setA
  split <;>
    · split
      · rw [List.length_map]
      · rw [List.length_append]
        omega

theorem imeGo_isSome (hasRes : List String → Bool) :
    ∀ (fuel : Nat) (am : List (List String × Finset Mode)) (i : Nat),
      imeMeasure am i ≤ fuel → (imeGo hasRes fuel am i).isSome := by
  intro fuel
  induction fuel with
  | zero =>
    intro am i h
    unfold imeGo
    by_cases hl : am.length ≤ i
    · rw [if_pos hl]; rfl
    · exact absurd h (by
        have := imeMeasure_pos (Nat.lt_of_not_le hl)
        omega)
  | succ fuel ih =>
    intro am i h
    unfold imeGo
    cases hgi : am[i]? with
    | none => rfl
    | some e =>
      have hi : i < am.length := by
        by_contra hc
        rw [List.getElem?_eq_none (Nat.le_of_not_lt hc)] at hgi
        exact Option.noConfusion hgi
      have hei : am[i] = e := by
        have := List.getElem?_eq_getElem hi
        rw [hgi] at this
        exact (Option.some.inj this).symm
    -- the measure at i decomposes
      have hms := imeMeasure_succ hi
      dsimp only
      by_cases hc : Mode.create ∈ e.2
      · rw [if_pos hc]
        by_cases hr : hasRes e.1.dropLast
        · rw [if_pos hr]
          exact ih am (i + 1) (by rw [hms, hei] at h; omega)
        · rw [if_neg hr]
          -- two cases for addAccessModes
          apply ih
          by_cases hmem : e.1.dropLast ∈ am.map Prod.fst
          · have heq : imeMeasure (addAccessModes e.1.dropLast {Mode.create} am)
                (i + 1) = imeMeasure am (i + 1) := by
              unfold addAccessModes
              cases hg : getA am e.1.dropLast with
              | some stored => exact imeMeasure_setA_mem am _ _ _ hmem
              | none =>
                exact absurd (getA_isSome_of_mem hmem)
                  (by rw [hg]; exact fun hx => Bool.noConfusion hx)
            rw [heq]
            rw [hei] at hms
            omega
          · -- parent not a key: append; the parent is strictly shorter
            have hne : e.1 ≠ [] := by
              intro hnil
              apply hmem
              rw [hnil, List.dropLast_nil, ← hnil]
              have : e ∈ am := hei ▸ am.getElem_mem hi
              exact List.mem_map.mpr ⟨e, this, rfl⟩
            have hlen : e.1.dropLast.length + 1 = e.1.length := by
              rw [List.length_dropLast]
              have : 0 < e.1.length := List.length_pos.mpr hne
              omega
            have heq : imeMeasure (addAccessModes e.1.dropLast {Mode.create} am)
                (i + 1) = imeMeasure am (i + 1) + (e.1.dropLast.length + 1) := by
              unfold addAccessModes
              cases hg : getA am e.1.dropLast with
              | some stored =>
                exact absurd (List.mem_map.mpr ⟨_, mem_of_getA hg, rfl⟩) hmem
              | none =>
                unfold setA
                rw [if_neg hmem]
                exact imeMeasure_append am _ _ hi
            rw [heq]
            rw [hei] at hms
            omega
      · rw [if_neg hc]
        exact ih am (i + 1) (by rw [hms, hei] at h; omega)

theorem mem_keys_addAccessModes {am : List (List String × Finset Mode)}
    {k : List String} {v : Finset Mode} {x : List String} :
    x ∈ (addAccessModes k v am).map Prod.fst ↔
      x ∈ am.map Prod.fst ∨ x = k := by
  unfold addAccessModes
  split <;> exact mem_keys_setA

theorem imeGo_keys (hasRes : List String → Bool) :
    ∀ (fuel : Nat) (am : List (List String × Finset Mode)) (i : Nat)
      (result : List (List String × Finset Mode)),
      imeGo hasRes fuel am i = some result →
      ∀ k, k ∈ result.map Prod.fst →
        k ∈ am.map Prod.fst ∨ hasRes k = false := by
  intro fuel
  induction fuel with
  | zero =>
    intro am i result h k hk
    unfold imeGo at h
    split at h
    · obtain rfl := Option.some.inj h
      exact Or.inl hk
    · exact Option.noConfusion h
  | succ fuel ih =>
    intro am i result h k hk
    unfold imeGo at h
    revert h
    cases hgi : am[i]? with
    | none =>
      intro h
      obtain rfl := Option.some.inj h
      exact Or.inl hk
    | some e =>
      dsimp only
      by_cases hc : Mode.create ∈ e.2
      · rw [if_pos hc]
        by_cases hr : hasRes e.1.dropLast
        · rw [if_pos hr]
          intro h
          exact ih am (i + 1) result h k hk
        · rw [if_neg hr]
          intro h
          rcases ih _ (i + 1) result h k hk with hm | hm
          · rcases mem_keys_addAccessModes.mp hm with hm' | rfl
            · exact Or.inl hm'
            · exact Or.inr (Bool.of_not_eq_true hr)
          · exact Or.inr hm
      · rw [if_neg hc]
        intro h
        exact ih am (i + 1) result h k hk

theorem getA_addAccessModes_grow
    (am : List (List String × Finset Mode)) (i : List String)
    (mds : Finset Mode) (k : List String) (v : Finset Mode)
    (h : getA am k = some v) :
    ∃ v', getA (addAccessModes i mds am) k = some v' ∧ v ⊆ v' := by
  by_cases hk : k = i
  · subst hk
    rw [getA_addAccessModes_self, h]
    exact ⟨mds ∪ v, rfl, Finset.subset_union_right⟩
  · rw [getA_addAccessModes_ne hk]
    exact ⟨v, h, Finset.Subset.refl v⟩

theorem imeGo_getA_grow (hasRes : List String → Bool) :
    ∀ (fuel : Nat) (am : List (List String × Finset Mode)) (i : Nat)
      (result : List (List String × Finset Mode)),
      imeGo hasRes fuel am i = some result →
      ∀ k v, getA am k = some v →
        ∃ v', getA result k = some v' ∧ v ⊆ v' := by
  intro fuel
  induction fuel with
  | zero =>
    intro am i result h k v hv
    unfold imeGo at h
    split at h
    · obtain rfl := Option.some.inj h
      exact ⟨v, hv, Finset.Subset.refl v⟩
    · exact Option.noConfusion h
  | succ fuel ih =>
    intro am i result h k v hv
    unfold imeGo at h
    revert h
    cases hgi : am[i]? with
    | none =>
      intro h
      obtain rfl := Option.some.inj h
      exact ⟨v, hv, Finset.Subset.refl v⟩
    | some e =>
      dsimp only
      by_cases hc : Mode.create ∈ e.2
      · rw [if_pos hc]
        by_cases hr : hasRes e.1.dropLast
        · rw [if_pos hr]
          intro h
          exact ih am (i + 1) result h k v hv
        · rw [if_neg hr]
          intro h
          obtain ⟨v1, hv1, hsub1⟩ :=
            getA_addAccessModes_grow am e.1.dropLast {Mode.create} k v hv
          obtain ⟨v2, hv2, hsub2⟩ := ih _ (i + 1) result h k v1 hv1
          exact ⟨v2, hv2, Finset.Subset.trans hsub1 hsub2⟩
      · rw [if_neg hc]
        intro h
        exact ih am (i + 1) result h k v hv

end IME

/-- C7 counterexample: the claim "every nonexistent ancestor container of
a `create` target receives `create`, stopping only at the first existing
ancestor" fails when an ancestor was already iterated past.  With initial
entries `/a/b/` (requiring only `read`) and `/a/b/c/d/` (requiring
`create`), and only the root existing, the walk appends `/a/b/c/`, then
merges `create` into the already-visited `/a/b/` entry — which is never
re-visited — so the nonexistent ancestor `/a/` never receives `create`
(it is absent from the output). -/
theorem C7_counterexample :
    IME.intermediateModes (fun x => decide (x = ([] : List String)))
      [(["a", "b"], ({Mode.read} : Finset Mode)),
       (["a", "b", "c", "d"], ({Mode.create} : Finset Mode))]
    = some [(["a", "b"], ({Mode.create, Mode.read} : Finset Mode)),
            (["a", "b", "c", "d"], ({Mode.create} : Finset Mode)),
            (["a", "b", "c"], ({Mode.create} : Finset Mode))] := by
  decide

/-- C7 (amended): the extractor's loop always terminates (the chosen fuel
suffices); every key of the output is an input key or a nonexistent
container (an existing parent is never added); input entries survive with
their modes only growing; and the walk adds `create` to the nonexistent
ancestors it reaches, stopping at the first existing one — but it
continues only through ancestors not already iterated past (see the
counterexample).  In particular, for a `create` on `/a/b/c/` where `/a/`
and `/a/b/` do not exist but `/` does, the output contains `/a/` and
`/a/b/` with `create` and does not contain `/`. -/
theorem C7_intermediate_modes (hasRes : List String → Bool)
    (am : List (List String × Finset Mode)) :
    (IME.intermediateModes hasRes am).isSome
    ∧ (∀ result, IME.intermediateModes hasRes am = some result →
        (∀ k, k ∈ result.map Prod.fst →
          k ∈ am.map Prod.fst ∨ hasRes k = false)
        ∧ (∀ k v, getA am k = some v →
            ∃ v', getA result k = some v' ∧ v ⊆ v'))
    ∧ IME.intermediateModes (fun x => decide (x = ([] : List String)))
        [(["a", "b", "c"], ({Mode.create, Mode.write} : Finset Mode))]
      = some [(["a", "b", "c"], ({Mode.create, Mode.write} : Finset Mode)),
              (["a", "b"], ({Mode.create} : Finset Mode)),
              (["a"], ({Mode.create} : Finset Mode))] := by
  refine ⟨?_, ?_, by decide⟩
  · exact IME.imeGo_isSome hasRes _ am 0 (Nat.le_refl _)
  · intro result h
    exact ⟨IME.imeGo_keys hasRes _ am 0 result h,
      IME.imeGo_getA_grow hasRes _ am 0 result h⟩

/-- Witness for C7 at a concrete input: in the `/a/b/c/` scenario the
output key `/a/` is not an input key, and indeed `/a/` does not exist. -/
theorem C7_intermediate_modes_witness :
    ["a"] ∈ ([(["a", "b", "c"],
        ({Mode.create, Mode.write} : Finset Mode))] :
      List (List String × Finset Mode)).map Prod.fst
    ∨ decide ((["a"] : List String) = []) = false :=
  ((C7_intermediate_modes (fun x => decide (x = ([] : List String)))
    [(["a", "b", "c"], ({Mode.create, Mode.write} : Finset Mode))]).2.1
    [(["a", "b", "c"], ({Mode.create, Mode.write} : Finset Mode)),
     (["a", "b"], ({Mode.create} : Finset Mode)),
     (["a"], ({Mode.create} : Finset Mode))]
    (by decide)).1 ["a"] (by decide)

/-- C9 counterexample: the claim "no ACL resource is fetched more than
once within a single `handle` call" fails.  With targets `/a/` and `/b/`
and only the root ACL `/.acl` present, discovery fetches `/a/.acl`, then
`/.acl`, claims only `/a/` (since `/b/` is not a substring of `/a/`), and
the second iteration fetches `/b/.acl` and then `/.acl` again: the fetch
trace contains `/.acl` twice. -/
theorem C9_counterexample :
    ((WebAcl.getAclMatches
        (fun p =>
          if p = "/.acl" then Except.ok ([] : WebAcl.Store)
          else Except.error WebAcl.StoreErr.notFound)
        [["a"], ["b"]]).map Prod.snd =
      some ["/a/.acl", "/.acl", "/b/.acl", "/.acl"])
    ∧ ¬(["/a/.acl", "/.acl", "/b/.acl", "/.acl"] : List String).Nodup := by
  constructor
  · decide
  · decide

/-- C9 (amended): within a single recursive ACL lookup
(`getAclRecursive`), no ACL identifier is fetched twice — the walk strictly
shortens the path at every step, so its fetch trace has no duplicates;
across iterations of the discovery loop, however, the same ACL identifier
can be fetched again, once per ancestor chain traversed (see the
counterexample). -/
theorem C9_no_refetch_per_walk
    (store : String → Except WebAcl.StoreErr WebAcl.Store)
    (id : List String) :
    ((WebAcl.getAclRecursive store id).2).Nodup :=
  WebAcl.getAclRecGo_trace_nodup store id.reverse

namespace ParentReader

theorem jsAnd_eq_some_true (x y : Option Bool) :
    jsAnd x y = some true ↔ x = some true ∧ y = some true := by
  rcases x with _ | b
  · simp [jsAnd]
  · cases b <;> simp [jsAnd]

theorem updateGroup_create (perm : Option Permission) (cp : Permission) :
    ((updateGroup perm (some cp)).getD {}).create =
      jsAnd cp.append
        (some (decide ¬((perm.getD {}).create = some false))) := rfl

theorem updateGroup_delete (perm : Option Permission) (cp : Permission) :
    ((updateGroup perm (some cp)).getD {}).delete =
      jsAnd (jsAnd (perm.getD {}).write cp.write)
        (some (decide ¬((perm.getD {}).delete = some false))) := rfl

theorem loop_getA_not_mem (cm : List (String × (String × Finset Mode)))
    (res : List (String × PermissionSet)) (k : String)
    (h : k ∉ cm.map Prod.fst) :
    getA (cm.foldl (fun result e =>
        setA result e.1
          (updatePermission (getA result e.1) (getA result e.2.1))) res) k
      = getA res k := by
  induction cm generalizing res with
  | nil => rfl
  | cons e rest ih =>
    simp only [List.map_cons, List.mem_cons, not_or] at h
    rw [List.foldl_cons, ih _ h.2, getA_setA_ne h.1]

theorem loop_getA_child (cm : List (String × (String × Finset Mode)))
    (res : List (String × PermissionSet))
    (hnd : (cm.map Prod.fst).Nodup)
    (hp : ∀ a ∈ cm, ∀ b ∈ cm, a.2.1 ≠ b.1) :
    ∀ e ∈ cm,
      getA (cm.foldl (fun result e =>
          setA result e.1
            (updatePermission (getA result e.1) (getA result e.2.1))) res) e.1
        = some (updatePermission (getA res e.1) (getA res e.2.1)) := by
  induction cm generalizing res with
  | nil => intro e he; simp at he
  | cons c rest ih =>
    intro e he
    simp only [List.map_cons, List.nodup_cons] at hnd
    rw [List.foldl_cons]
    rcases List.mem_cons.mp he with rfl | he'
    · rw [loop_getA_not_mem _ _ _ hnd.1, getA_setA_self]
    · have hne : e.1 ≠ c.1 := by
        intro hcon
        exact hnd.1 (hcon ▸ List.mem_map.mpr ⟨e, he', rfl⟩)
      have hpne : e.2.1 ≠ c.1 :=
        hp e (List.mem_cons_of_mem _ he') c (List.mem_cons_self _ _)
      rw [ih _ hnd.2
          (fun a ha b hb =>
            hp a (List.mem_cons_of_mem _ ha) b (List.mem_cons_of_mem _ hb))
          e he',
        getA_setA_ne hne, getA_setA_ne hpne]

theorem findParents_keys (parentOf : String → String)
    (am : List (String × Finset Mode)) :
    (findParents parentOf am).map Prod.fst =
      (am.filter fun e => Mode.create ∈ e.2 ∨ Mode.delete ∈ e.2).map
        Prod.fst := by
  unfold findParents
  rw [List.map_map]
  rfl

theorem findParents_keys_nodup (parentOf : String → String)
    (am : List (String × Finset Mode))
    (hnd : (am.map Prod.fst).Nodup) :
    ((findParents parentOf am).map Prod.fst).Nodup := by
  rw [findParents_keys]
  exact hnd.sublist (List.Sublist.map _ (List.filter_sublist _))

theorem updateAccessMap_nil_nil {κ : Type} [DecidableEq κ]
    (am : List (κ × Finset Mode)) :
    updateAccessMap [] [] am = am := by
  unfold updateAccessMap
  simp

end ParentReader

/-- C3 counterexample: the claim "an explicit `false` at the child is
preserved" fails.  With required mode `create` on `/c`, an inner reader
answering `create = false` for `/c` in the `public` group and an empty
permission (group present, `append` undefined) for the parent `/`, the
output permission for `/c` has `create = undefined` (the JavaScript `&&`
returns the undefined parent `append`), not the child's explicit `false`. -/
theorem C3_counterexample :
    getA (ParentReader.handle (fun _ => "/")
        (fun _ =>
          [("/c", { pub := some { create := some false } }),
           ("/", { pub := some {} })])
        [("/c", ({Mode.create} : Finset Mode))]) "/c" =
      some { pub := some ({} : Permission) } := by decide

namespace AclAux

theorem findAcl_keys (isAux : String → Bool) (subjectOf : String → String)
    (am : List (String × Finset Mode)) :
    (findAcl isAux subjectOf am).map Prod.fst =
      (am.filter fun e => isAux e.1).map Prod.fst := by
  unfold findAcl
  rw [List.map_map]
  rfl

theorem findAcl_keys_nodup (isAux : String → Bool)
    (subjectOf : String → String) (am : List (String × Finset Mode))
    (hnd : (am.map Prod.fst).Nodup) :
    ((findAcl isAux subjectOf am).map Prod.fst).Nodup := by
  rw [findAcl_keys]
  exact hnd.sublist (List.Sublist.map _ (List.filter_sublist _))

theorem aclLoop_getA_not_mem (cm : List (String × (String × Finset Mode)))
    (res : List (String × PermissionSet)) (k : String)
    (h : k ∉ cm.map Prod.fst) :
    getA (cm.foldl (fun result e =>
        setA result e.1 (updatePermission (getA result e.2.1))) res) k
      = getA res k := by
  induction cm generalizing res with
  | nil => rfl
  | cons e rest ih =>
    simp only [List.map_cons, List.mem_cons, not_or] at h
    rw [List.foldl_cons, ih _ h.2, getA_setA_ne h.1]

theorem aclLoop_getA_child (cm : List (String × (String × Finset Mode)))
    (res : List (String × PermissionSet))
    (hnd : (cm.map Prod.fst).Nodup)
    (hp : ∀ a ∈ cm, ∀ b ∈ cm, a.2.1 ≠ b.1) :
    ∀ e ∈ cm,
      getA (cm.foldl (fun result e =>
          setA result e.1 (updatePermission (getA result e.2.1))) res) e.1
        = some (updatePermission (getA res e.2.1)) := by
  induction cm generalizing res with
  | nil => intro e he; simp at he
  | cons c rest ih =>
    intro e he
    simp only [List.map_cons, List.nodup_cons] at hnd
    rw [List.foldl_cons]
    rcases List.mem_cons.mp he with rfl | he'
    · rw [aclLoop_getA_not_mem _ _ _ hnd.1, getA_setA_self]
    · have hne : e.1 ≠ c.1 := by
        intro hcon
        exact hnd.1 (hcon ▸ List.mem_map.mpr ⟨e, he', rfl⟩)
      have hpne : e.2.1 ≠ c.1 :=
        hp e (List.mem_cons_of_mem _ he') c (List.mem_cons_self _ _)
      rw [ih _ hnd.2
          (fun a ha b hb =>
            hp a (List.mem_cons_of_mem _ ha) b (List.mem_cons_of_mem _ hb))
          e he',
        getA_setA_ne hpne]

end AclAux

/-- C4: for every ACL auxiliary identifier in the input, the outgoing
access map drops the ACL identifier and carries `{control}` on its subject
(merged with the subject's existing required modes); after the inner call
the ACL identifier maps to `updatePermission` of the subject's result,
which assigns, per credential group present there, `read`, `append`,
`write` and `control` all equal to the subject's `control` value; an
absent subject yields the empty `PermissionSet`. -/
theorem C4_webacl_auxiliary (isAux : String → Bool)
    (subjectOf : String → String)
    (reader : List (String × Finset Mode) → List (String × PermissionSet))
    (accessMap : List (String × Finset Mode))
    (hnd : (accessMap.map Prod.fst).Nodup)
    (hsub : ∀ k, isAux k = true → isAux (subjectOf k) = false) :
    (∀ a modes₀, getA accessMap a = some modes₀ → isAux a = true →
      getA (updateAccessMap
          ((AclAux.findAcl isAux subjectOf accessMap).map fun e => e.2)
          ((AclAux.findAcl isAux subjectOf accessMap).map fun e => e.1)
          accessMap) a = none
      ∧ getA (updateAccessMap
          ((AclAux.findAcl isAux subjectOf accessMap).map fun e => e.2)
          ((AclAux.findAcl isAux subjectOf accessMap).map fun e => e.1)
          accessMap) (subjectOf a) =
        some ({Mode.control} ∪ (getA accessMap (subjectOf a)).getD ∅))
    ∧ (∀ a modes₀, getA accessMap a = some modes₀ → isAux a = true →
        getA (AclAux.handle isAux subjectOf reader accessMap) a =
          some (AclAux.updatePermission
            (getA (reader (updateAccessMap
              ((AclAux.findAcl isAux subjectOf accessMap).map fun e => e.2)
              ((AclAux.findAcl isAux subjectOf accessMap).map fun e => e.1)
              accessMap)) (subjectOf a))))
    ∧ AclAux.updatePermission none = {}
    ∧ (∀ (s : PermissionSet) (g : CredentialGroup),
        (AclAux.updatePermission (some s)).get g =
          (s.get g).map fun p =>
            { read := p.control
              append := p.control
              write := p.control
              control := p.control }) := by
  have hauxmem : ∀ a modes₀, getA accessMap a = some modes₀ → isAux a = true →
      (a, (subjectOf a, ({Mode.control} : Finset Mode)))
        ∈ AclAux.findAcl isAux subjectOf accessMap := by
    intro a modes₀ hget haux
    exact List.mem_map.mpr
      ⟨(a, modes₀), List.mem_filter.mpr ⟨mem_of_getA hget, haux⟩, rfl⟩
  have hremove : ∀ k, k ∈ (AclAux.findAcl isAux subjectOf accessMap).map
      (fun e => e.1) → isAux k = true := by
    intro k hk
    obtain ⟨e, he, rfl⟩ := List.mem_map.mp hk
    obtain ⟨e0, he0, rfl⟩ := List.mem_map.mp he
    exact (List.mem_filter.mp he0).2
  have haddkeys : ∀ k, k ∈ ((AclAux.findAcl isAux subjectOf accessMap).map
      fun e => e.2).map Prod.fst → isAux k = false := by
    intro k hk
    obtain ⟨e, he, rfl⟩ := List.mem_map.mp hk
    obtain ⟨e0, he0, rfl⟩ := List.mem_map.mp he
    obtain ⟨e1, he1, rfl⟩ := List.mem_map.mp he0
    exact hsub _ (List.mem_filter.mp he1).2
  refine ⟨?_, ?_, rfl, ?_⟩
  · intro a modes₀ hget haux
    constructor
    · unfold updateAccessMap
      have hnotadd : a ∉ ((AclAux.findAcl isAux subjectOf accessMap).map
          fun e => e.2).map Prod.fst := by
        intro hc
        rw [haddkeys a hc] at haux
        exact Bool.false_ne_true haux
      rw [getA_addFold_not_mem _ _ _ hnotadd]
      have hin : a ∈ (AclAux.findAcl isAux subjectOf accessMap).map
          fun e => e.1 :=
        List.mem_map.mpr ⟨_, hauxmem a modes₀ hget haux, rfl⟩
      exact getA_filterKey_false (q := fun k =>
        decide (k ∉ (AclAux.findAcl isAux subjectOf accessMap).map
          fun e => e.1)) (decide_eq_false (not_not_intro hin))
    · unfold updateAccessMap
      have hsmem : subjectOf a ∈ ((AclAux.findAcl isAux subjectOf accessMap).map
          fun e => e.2).map Prod.fst :=
        List.mem_map.mpr ⟨_, List.mem_map.mpr ⟨_, hauxmem a modes₀ hget haux, rfl⟩, rfl⟩
      have hall : ∀ e ∈ (AclAux.findAcl isAux subjectOf accessMap).map
          fun e => e.2, e.1 = subjectOf a →
            e.2 = ({Mode.control} : Finset Mode) := by
        intro e he _
        obtain ⟨e0, he0, rfl⟩ := List.mem_map.mp he
        obtain ⟨e1, he1, rfl⟩ := List.mem_map.mp he0
        rfl
      rw [getA_addFold_const _ _ _ _ hall hsmem]
      have hnot : subjectOf a ∉ (AclAux.findAcl isAux subjectOf accessMap).map
          fun e => e.1 := by
        intro hc
        have h1 : isAux (subjectOf a) = true := hremove _ hc
        have h2 : isAux (subjectOf a) = false := hsub a haux
        rw [h1] at h2
        exact Bool.noConfusion h2
      have hq : getA (accessMap.filter fun e =>
          decide (e.1 ∉ (AclAux.findAcl isAux subjectOf accessMap).map
            (fun e => e.1))) (subjectOf a) = getA accessMap (subjectOf a) :=
        getA_filterKey_true (q := fun k =>
          decide (k ∉ (AclAux.findAcl isAux subjectOf accessMap).map
            fun e => e.1)) (decide_eq_true hnot)
      rw [hq]
  · intro a modes₀ hget haux
    have hout : AclAux.handle isAux subjectOf reader accessMap =
        if (AclAux.findAcl isAux subjectOf accessMap).isEmpty then
          reader accessMap
        else
          (AclAux.findAcl isAux subjectOf accessMap).foldl
            (fun result e =>
              setA result e.1 (AclAux.updatePermission (getA result e.2.1)))
            (reader (updateAccessMap
              ((AclAux.findAcl isAux subjectOf accessMap).map fun e => e.2)
              ((AclAux.findAcl isAux subjectOf accessMap).map fun e => e.1)
              accessMap)) := rfl
    have hmem := hauxmem a modes₀ hget haux
    have hemp : ¬(AclAux.findAcl isAux subjectOf accessMap).isEmpty := by
      intro h
      rw [List.isEmpty_iff] at h
      rw [h] at hmem
      simp at hmem
    have hp : ∀ x ∈ AclAux.findAcl isAux subjectOf accessMap,
        ∀ b ∈ AclAux.findAcl isAux subjectOf accessMap, x.2.1 ≠ b.1 := by
      intro x hx b hb
      obtain ⟨x0, hx0, rfl⟩ := List.mem_map.mp hx
      obtain ⟨b0, hb0, rfl⟩ := List.mem_map.mp hb
      intro hc
      have hc' : subjectOf x0.1 = b0.1 := hc
      have h1 : isAux (subjectOf x0.1) = false :=
        hsub _ (List.mem_filter.mp hx0).2
      have h2 : isAux b0.1 = true := (List.mem_filter.mp hb0).2
      rw [hc', h2] at h1
      exact Bool.noConfusion h1
    rw [hout, if_neg hemp]
    exact AclAux.aclLoop_getA_child _ _
      (AclAux.findAcl_keys_nodup _ _ _ hnd) hp _ hmem
  · intro s g
    cases g <;> cases hs : s.pub <;> cases hs' : s.ag <;>
      simp [AclAux.updatePermission, AclAux.updateGroupAcl,
        PermissionSet.get, hs, hs']

/-- Witness for C4 at a concrete input (spec scenario S4): `/foo/.acl`
requires `read`; the inner reader grants `control = true` on `/foo/`; the
output for `/foo/.acl` has `read`, `append`, `write` and `control` all
`true`. -/
theorem C4_webacl_auxiliary_witness :
    getA (AclAux.handle (fun k => decide (k = "/foo/.acl")) (fun _ => "/foo/")
        (fun _ => [("/foo/", { pub := some { control := some true } })])
        [("/foo/.acl", ({Mode.read} : Finset Mode))]) "/foo/.acl" =
      some { pub := some ({ read := some true, append := some true, write := some true, control := some true } : Permission) } := by
  have h := (C4_webacl_auxiliary (fun k => decide (k = "/foo/.acl"))
    (fun _ => "/foo/")
    (fun _ => [("/foo/", { pub := some { control := some true } })])
    [("/foo/.acl", ({Mode.read} : Finset Mode))]
    (by decide) (fun k _ => rfl)).2.1 "/foo/.acl"
    ({Mode.read} : Finset Mode) (by decide) (by decide)
  rw [h]
  decide

namespace PathBased

theorem matchReaders_aux (baseUrl : String)
    (paths : List ((String → Bool) × Nat)) (k : String)
    (hk : findReader baseUrl paths k = none)
    (am : List (String × Finset Mode))
    (acc : List (Nat × List (String × Finset Mode)))
    (hacc : ∀ p ∈ acc, k ∉ p.2.map Prod.fst) :
    ∀ p ∈ am.foldl
        (fun result e =>
          match findReader baseUrl paths e.1 with
          | none => result
          | some i =>
            match getA result i with
            | none => setA result i [(e.1, e.2)]
            | some ms => setA result i (setA ms e.1 e.2))
        acc,
      k ∉ p.2.map Prod.fst := by
  induction am generalizing acc with
  | nil => exact hacc
  | cons e rest ih =>
    rw [List.foldl_cons]
    apply ih
    cases hfr : findReader baseUrl paths e.1 with
    | none => exact hacc
    | some i =>
      have hek : e.1 ≠ k := by
        intro hc
        rw [hc, hk] at hfr
        exact Option.noConfusion hfr
      show ∀ p ∈ (match getA acc i with
        | none => setA acc i [(e.1, e.2)]
        | some ms => setA acc i (setA ms e.1 e.2)),
        k ∉ p.2.map Prod.fst
      cases hget : getA acc i with
      | none =>
        intro p hp
        rcases mem_setA hp with hp' | hp'
        · exact hacc p hp'
        · subst hp'
          intro hc
          simp only [List.map_cons, List.map_nil, List.mem_singleton] at hc
          exact hek hc.symm
      | some ms =>
        intro p hp
        rcases mem_setA hp with hp' | hp'
        · exact hacc p hp'
        · subst hp'
          intro hc
          rcases mem_keys_setA.mp hc with hc' | hc'
          · exact hacc (i, ms) (mem_of_getA hget) hc'
          · exact hek hc'.symm

end PathBased

/-- C10: an identifier whose path does not start with the configured base
URL (normalized with a trailing slash) is never dispatched to a sub-reader
by `PathBasedReader.matchReaders`, and — as long as each sub-reader only
answers for identifiers it was asked about — it is absent from
`PathBasedReader.handle`'s output, regardless of the configured regular
expressions. -/
theorem C10_pathbased_base_url (baseUrl : String)
    (paths : List ((String → Bool) × Nat))
    (readers : Nat → List (String × Finset Mode) →
      List (String × PermissionSet))
    (accessMap : List (String × Finset Mode)) (k : String)
    (hk : PathBased.strStartsWith k (PathBased.ensureTrailingSlash baseUrl)
      = false)
    (hsub : ∀ i am, ∀ x ∈ (readers i am).map Prod.fst, x ∈ am.map Prod.fst) :
    (∀ p ∈ PathBased.matchReaders baseUrl paths accessMap,
      k ∉ p.2.map Prod.fst)
    ∧ getA (PathBased.handle baseUrl paths readers accessMap) k = none := by
  have hfr : PathBased.findReader baseUrl paths k = none := by
    unfold PathBased.findReader
    rw [hk]
    simp
  have hmatch : ∀ p ∈ PathBased.matchReaders baseUrl paths accessMap,
      k ∉ p.2.map Prod.fst :=
    PathBased.matchReaders_aux baseUrl paths k hfr accessMap []
      (fun p hp => absurd hp (List.not_mem_nil p))
  refine ⟨hmatch, ?_⟩
  unfold PathBased.handle
  have hjoin : k ∉ (List.flatten ((PathBased.matchReaders baseUrl paths
      accessMap).map fun e => readers e.1 e.2)).map Prod.fst := by
    intro hc
    obtain ⟨x, hx, rfl⟩ := List.mem_map.mp hc
    obtain ⟨sub, hsub', hxsub⟩ := List.mem_flatten.mp hx
    obtain ⟨p, hp, rfl⟩ := List.mem_map.mp hsub'
    exact hmatch p hp
      (hsub p.1 p.2 x.1 (List.mem_map.mpr ⟨x, hxsub, rfl⟩))
  rw [getA_buildFold_not_mem _ _ _ hjoin]
  rfl

/-- Witness for C10 at a concrete input: with base URL `http://test.com/`
and a catch-all regular expression, the identifier `http://other.com/x`
(which even matches the regex) gets no verdict. -/
theorem C10_pathbased_base_url_witness :
    getA (PathBased.handle "http://test.com/" [(fun _ => true, 0)]
        (fun _ am => am.map fun e =>
          (e.1, ({ pub := some { read := some true } } : PermissionSet)))
        [("http://other.com/x", ({Mode.read} : Finset Mode))])
      "http://other.com/x" = none :=
  (C10_pathbased_base_url "http://test.com/" [(fun _ => true, 0)]
    (fun _ am => am.map fun e =>
      (e.1, ({ pub := some { read := some true } } : PermissionSet)))
    [("http://other.com/x", ({Mode.read} : Finset Mode))]
    "http://other.com/x" (by decide)
    (fun i am x hx => by rw [List.map_map] at hx; exact hx)).2

theorem mem_keys_addAccessModesG {κ : Type} [DecidableEq κ]
    {am : List (κ × Finset Mode)} {k : κ} {v : Finset Mode} {x : κ} :
    x ∈ (addAccessModes k v am).map Prod.fst ↔
      x ∈ am.map Prod.fst ∨ x = k := by
  unfold addAccessModes
  split <;> exact mem_keys_setA

theorem keys_updateAccessMap {κ : Type} [DecidableEq κ]
    (add : List (κ × Finset Mode)) (remove : List κ)
    (base : List (κ × Finset Mode)) (p : κ)
    (hp : p ∈ (updateAccessMap add remove base).map Prod.fst) :
    p ∈ base.map Prod.fst ∨ p ∈ add.map Prod.fst := by
  unfold updateAccessMap at hp
  suffices h : ∀ (add : List (κ × Finset Mode))
      (acc : List (κ × Finset Mode)),
      p ∈ (add.foldl (fun result e => addAccessModes e.1 e.2 result)
        acc).map Prod.fst →
      p ∈ acc.map Prod.fst ∨ p ∈ add.map Prod.fst by
    rcases h add _ hp with h1 | h1
    · obtain ⟨e, he, rfl⟩ := List.mem_map.mp h1
      exact Or.inl (List.mem_map.mpr ⟨e, (List.mem_filter.mp he).1, rfl⟩)
    · exact Or.inr h1
  intro add
  induction add with
  | nil => intro acc h; exact Or.inl h
  | cons e rest ih =>
    intro acc h
    rw [List.foldl_cons] at h
    rcases ih _ h with h1 | h1
    · rcases mem_keys_addAccessModesG.mp h1 with h2 | rfl
      · exact Or.inl h2
      · exact Or.inr (List.mem_map.mpr ⟨e, List.mem_cons_self _ _, rfl⟩)
    · rw [List.map_cons]
      exact Or.inr (List.mem_cons_of_mem _ h1)

namespace PathBased

theorem matchReaders_keys_aux (baseUrl : String)
    (paths : List ((String → Bool) × Nat)) (P : String → Prop) :
    ∀ (am : List (String × Finset Mode))
      (acc : List (Nat × List (String × Finset Mode))),
      (∀ q ∈ acc, ∀ x ∈ q.2.map Prod.fst, P x) →
      (∀ e ∈ am, P e.1) →
      ∀ q ∈ am.foldl
          (fun result e =>
            match findReader baseUrl paths e.1 with
            | none => result
            | some i =>
              match getA result i with
              | none => setA result i [(e.1, e.2)]
              | some ms => setA result i (setA ms e.1 e.2))
          acc,
        ∀ x ∈ q.2.map Prod.fst, P x := by
  intro am
  induction am with
  | nil => intro acc hacc _; exact hacc
  | cons e rest ih =>
    intro acc hacc ham
    rw [List.foldl_cons]
    apply ih
    · cases hfr : findReader baseUrl paths e.1 with
      | none => exact hacc
      | some i =>
        show ∀ q ∈ (match getA acc i with
          | none => setA acc i [(e.1, e.2)]
          | some ms => setA acc i (setA ms e.1 e.2)),
          ∀ x ∈ q.2.map Prod.fst, P x
        cases hget : getA acc i with
        | none =>
          intro q hq x hx
          rcases mem_setA hq with hq' | hq'
          · exact hacc q hq' x hx
          · subst hq'
            simp only [List.map_cons, List.map_nil,
              List.mem_singleton] at hx
            exact hx ▸ ham e (List.mem_cons_self _ _)
        | some ms =>
          intro q hq x hx
          rcases mem_setA hq with hq' | hq'
          · exact hacc q hq' x hx
          · subst hq'
            rcases mem_keys_setA.mp hx with hx' | rfl
            · exact hacc (i, ms) (mem_of_getA hget) x hx'
            · exact ham e (List.mem_cons_self _ _)
    · exact fun x hx => ham x (List.mem_cons_of_mem _ hx)

end PathBased

/-- C8 counterexample: the claim "only the two auxiliary readers may
return keys outside the input map" fails for `ParentContainerReader`: with
input `{/a/b: {create}}` and an inner reader that answers exactly for the
identifiers it is asked about, the output contains the parent container
`/a/`, which is not an input key. -/
theorem C8_counterexample :
    "/a/" ∈ (ParentReader.handle (fun _ => "/a/")
        (fun m => m.map fun e => (e.1, ({} : PermissionSet)))
        [("/a/b", ({Mode.create} : Finset Mode))]).map Prod.fst
    ∧ "/a/" ∉ ([("/a/b", ({Mode.create} : Finset Mode))] :
        List (String × Finset Mode)).map Prod.fst := by
  constructor
  · decide
  · decide

/-- C8 (amended): for well-behaved inner readers (whose output keys are a
subset of their input keys), `AllStaticReader` returns exactly the input
keys, `PathBasedReader` returns a subset of the input keys, and the two
transform readers may exceed the input keys only in a documented way:
`ParentContainerReader` by parent-container identifiers of create/delete
entries, `WebAclAuxiliaryReader` by subject identifiers of ACL auxiliary
entries. -/
theorem C8_reader_keys :
    (∀ (allow : Bool) (credentials : CredentialSet)
        (am : List (String × Finset Mode)),
      (AllStatic.handle allow credentials am).map Prod.fst
        = am.map Prod.fst)
    ∧ (∀ (baseUrl : String) (paths : List ((String → Bool) × Nat))
        (readers : Nat → List (String × Finset Mode) →
          List (String × PermissionSet))
        (am : List (String × Finset Mode)),
        (∀ i m, ∀ x ∈ (readers i m).map Prod.fst, x ∈ m.map Prod.fst) →
        ∀ p ∈ (PathBased.handle baseUrl paths readers am).map Prod.fst,
          p ∈ am.map Prod.fst)
    ∧ (∀ (parentOf : String → String)
        (reader : List (String × Finset Mode) →
          List (String × PermissionSet))
        (am : List (String × Finset Mode)),
        (∀ m, ∀ x ∈ (reader m).map Prod.fst, x ∈ m.map Prod.fst) →
        ∀ p ∈ (ParentReader.handle parentOf reader am).map Prod.fst,
          p ∈ am.map Prod.fst ∨
            ∃ e ∈ am, (Mode.create ∈ e.2 ∨ Mode.delete ∈ e.2) ∧
              p = parentOf e.1)
    ∧ (∀ (isAux : String → Bool) (subjectOf : String → String)
        (reader : List (String × Finset Mode) →
          List (String × PermissionSet))
        (am : List (String × Finset Mode)),
        (∀ m, ∀ x ∈ (reader m).map Prod.fst, x ∈ m.map Prod.fst) →
        ∀ p ∈ (AclAux.handle isAux subjectOf reader am).map Prod.fst,
          p ∈ am.map Prod.fst ∨
            ∃ e ∈ am, isAux e.1 = true ∧ p = subjectOf e.1) := by
  refine ⟨?_, ?_, ?_, ?_⟩
  · intro allow credentials am
    unfold AllStatic.handle
    rw [List.map_map]
    rfl
  · intro baseUrl paths readers am hsub p hp
    unfold PathBased.handle at hp
    rcases (keys_setFold_iff _ Prod.fst (fun _ e => e.2) [] p).mp hp
      with h | ⟨e, he, rfl⟩
    · simp at h
    · obtain ⟨sub, hsubl, hesub⟩ := List.mem_flatten.mp he
      obtain ⟨q, hq, rfl⟩ := List.mem_map.mp hsubl
      have hq2 : ∀ x ∈ q.2.map Prod.fst, x ∈ am.map Prod.fst :=
        PathBased.matchReaders_keys_aux baseUrl paths
          (fun x => x ∈ am.map Prod.fst) am []
          (fun q hq => absurd hq (List.not_mem_nil q))
          (fun e he => List.mem_map.mpr ⟨e, he, rfl⟩) q hq
      exact hq2 e.1
        (hsub q.1 q.2 e.1 (List.mem_map.mpr ⟨e, hesub, rfl⟩))
  · intro parentOf reader am hsub p hp
    have hout : ParentReader.handle parentOf reader am =
        if (ParentReader.findParents parentOf am).isEmpty then reader am
        else
          (ParentReader.findParents parentOf am).foldl
            (fun result e =>
              setA result e.1
                (ParentReader.updatePermission (getA result e.1)
                  (getA result e.2.1)))
            (reader (updateAccessMap
              ((ParentReader.findParents parentOf am).map fun e => e.2)
              [] am)) := rfl
    rw [hout] at hp
    have hcm : ∀ x, x ∈ ((ParentReader.findParents parentOf am).map
        fun e => e.2).map Prod.fst →
        ∃ e ∈ am, (Mode.create ∈ e.2 ∨ Mode.delete ∈ e.2) ∧
          x = parentOf e.1 := by
      intro x hx
      obtain ⟨e0, he0, rfl⟩ := List.mem_map.mp hx
      unfold ParentReader.findParents at he0
      rw [List.map_map] at he0
      obtain ⟨e2, he2, rfl⟩ := List.mem_map.mp he0
      obtain ⟨he2m, he2P⟩ := List.mem_filter.mp he2
      exact ⟨e2, he2m, of_decide_eq_true he2P, rfl⟩
    by_cases hemp : (ParentReader.findParents parentOf am).isEmpty
    · rw [if_pos hemp] at hp
      exact Or.inl (hsub _ p hp)
    · rw [if_neg hemp] at hp
      rcases (keys_setFold_iff _ Prod.fst
          (fun (res : List (String × PermissionSet))
            (e : String × (String × Finset Mode)) =>
            ParentReader.updatePermission (getA res e.1)
              (getA res e.2.1)) _ p).mp hp with h | ⟨e, he, rfl⟩
      · rcases keys_updateAccessMap _ [] am p (hsub _ p h) with h1 | h1
        · exact Or.inl h1
        · exact Or.inr (hcm p h1)
      · unfold ParentReader.findParents at he
        obtain ⟨e2, he2, rfl⟩ := List.mem_map.mp he
        exact Or.inl (List.mem_map.mpr ⟨e2, (List.mem_filter.mp he2).1, rfl⟩)
  · intro isAux subjectOf reader am hsub p hp
    have hout : AclAux.handle isAux subjectOf reader am =
        if (AclAux.findAcl isAux subjectOf am).isEmpty then reader am
        else
          (AclAux.findAcl isAux subjectOf am).foldl
            (fun result e =>
              setA result e.1
                (AclAux.updatePermission (getA result e.2.1)))
            (reader (updateAccessMap
              ((AclAux.findAcl isAux subjectOf am).map fun e => e.2)
              ((AclAux.findAcl isAux subjectOf am).map fun e => e.1)
              am)) := rfl
    rw [hout] at hp
    have hcm : ∀ x, x ∈ ((AclAux.findAcl isAux subjectOf am).map
        fun e => e.2).map Prod.fst →
        ∃ e ∈ am, isAux e.1 = true ∧ x = subjectOf e.1 := by
      intro x hx
      obtain ⟨e0, he0, rfl⟩ := List.mem_map.mp hx
      unfold AclAux.findAcl at he0
      rw [List.map_map] at he0
      obtain ⟨e2, he2, rfl⟩ := List.mem_map.mp he0
      obtain ⟨he2m, he2P⟩ := List.mem_filter.mp he2
      exact ⟨e2, he2m, he2P, rfl⟩
    by_cases hemp : (AclAux.findAcl isAux subjectOf am).isEmpty
    · rw [if_pos hemp] at hp
      exact Or.inl (hsub _ p hp)
    · rw [if_neg hemp] at hp
      rcases (keys_setFold_iff _ Prod.fst
          (fun (res : List (String × PermissionSet))
            (e : String × (String × Finset Mode)) =>
            AclAux.updatePermission (getA res e.2.1)) _ p).mp
          hp with h | ⟨e, he, rfl⟩
      · rcases keys_updateAccessMap _ _ am p (hsub _ p h) with h1 | h1
        · exact Or.inl h1
        · exact Or.inr (hcm p h1)
      · unfold AclAux.findAcl at he
        obtain ⟨e2, he2, rfl⟩ := List.mem_map.mp he
        exact Or.inl (List.mem_map.mpr ⟨e2, (List.mem_filter.mp he2).1, rfl⟩)

/-- Witness for C8 at a concrete input: the parent key `/a/` produced by
`ParentContainerReader` on `{/a/b: {create}}` is accounted for by the
parent-container exception. -/
theorem C8_reader_keys_witness :
    "/a/" ∈ ([("/a/b", ({Mode.create} : Finset Mode))] :
      List (String × Finset Mode)).map Prod.fst
    ∨ ∃ e ∈ ([("/a/b", ({Mode.create} : Finset Mode))] :
        List (String × Finset Mode)),
        (Mode.create ∈ e.2 ∨ Mode.delete ∈ e.2) ∧ "/a/" = "/a/" :=
  C8_reader_keys.2.2.1 (fun _ => "/a/")
    (fun m => m.map fun e => (e.1, ({} : PermissionSet)))
    [("/a/b", ({Mode.create} : Finset Mode))]
    (fun m x hx => by rw [List.map_map] at hx; exact hx)
    "/a/" (by decide)

/-- C3 (amended): for child entries requiring `create` or `delete` (with
unique map keys and no such entry being the parent of another), the output
at the child is `updatePermission` of the inner reader's child and parent
results; per group present in the parent's result, `create` is `true` iff
the parent's `append` is `true` and the child's `create` is not explicitly
`false`, and `delete` is `true` iff the child's `write` and parent's
`write` are `true` and the child's `delete` is not explicitly `false`; an
explicit `false` at the child never becomes `true`, and is preserved as
`false` only when the governing conjuncts are defined (parent `append`
defined for `create`; `child.write && parent.write` defined for `delete`)
— otherwise it becomes `undefined`; groups absent from the parent's
result, the non-create/delete modes, and child entries with no
create/delete requirement pass through unchanged. -/
theorem C3_parent_container (parentOf : String → String)
    (reader : List (String × Finset Mode) → List (String × PermissionSet))
    (accessMap : List (String × Finset Mode))
    (hnd : (accessMap.map Prod.fst).Nodup)
    (hpar : ∀ e ∈ accessMap, (Mode.create ∈ e.2 ∨ Mode.delete ∈ e.2) →
      ∀ e' ∈ accessMap, (Mode.create ∈ e'.2 ∨ Mode.delete ∈ e'.2) →
        parentOf e.1 ≠ e'.1) :
    (∀ k modes, getA accessMap k = some modes →
      Mode.create ∉ modes → Mode.delete ∉ modes →
      getA (ParentReader.handle parentOf reader accessMap) k =
        getA (reader (updateAccessMap
          ((ParentReader.findParents parentOf accessMap).map fun e => e.2)
          [] accessMap)) k)
    ∧ (∀ c modes, getA accessMap c = some modes →
        Mode.create ∈ modes ∨ Mode.delete ∈ modes →
        getA (ParentReader.handle parentOf reader accessMap) c =
          some (ParentReader.updatePermission
            (getA (reader (updateAccessMap
              ((ParentReader.findParents parentOf accessMap).map fun e => e.2)
              [] accessMap)) c)
            (getA (reader (updateAccessMap
              ((ParentReader.findParents parentOf accessMap).map fun e => e.2)
              [] accessMap)) (parentOf c))))
    ∧ (∀ (perm : Option Permission) (cp : Permission),
        (((ParentReader.updateGroup perm (some cp)).getD {}).create
            = some true ↔
          cp.append = some true ∧ (perm.getD {}).create ≠ some false)
        ∧ (((ParentReader.updateGroup perm (some cp)).getD {}).delete
              = some true ↔
            (perm.getD {}).write = some true ∧ cp.write = some true ∧
              (perm.getD {}).delete ≠ some false)
        ∧ ((perm.getD {}).create = some false →
            ((ParentReader.updateGroup perm (some cp)).getD {}).create
                ≠ some true ∧
              (cp.append ≠ none →
                ((ParentReader.updateGroup perm (some cp)).getD {}).create
                  = some false))
        ∧ ((perm.getD {}).delete = some false →
            ((ParentReader.updateGroup perm (some cp)).getD {}).delete
                ≠ some true ∧
              (ParentReader.jsAnd (perm.getD {}).write cp.write ≠ none →
                ((ParentReader.updateGroup perm (some cp)).getD {}).delete
                  = some false))
        ∧ (((ParentReader.updateGroup perm (some cp)).getD {}).read
              = (perm.getD {}).read
            ∧ ((ParentReader.updateGroup perm (some cp)).getD {}).append
              = (perm.getD {}).append
            ∧ ((ParentReader.updateGroup perm (some cp)).getD {}).write
              = (perm.getD {}).write
            ∧ ((ParentReader.updateGroup perm (some cp)).getD {}).control
              = (perm.getD {}).control))
    ∧ (∀ perm, ParentReader.updateGroup perm none = perm) := by
  have hout : ParentReader.handle parentOf reader accessMap =
      if (ParentReader.findParents parentOf accessMap).isEmpty then
        reader accessMap
      else
        (ParentReader.findParents parentOf accessMap).foldl
          (fun result e =>
            setA result e.1
              (ParentReader.updatePermission (getA result e.1)
                (getA result e.2.1)))
          (reader (updateAccessMap
            ((ParentReader.findParents parentOf accessMap).map fun e => e.2)
            [] accessMap)) := rfl
  have hpcm : ∀ a ∈ ParentReader.findParents parentOf accessMap,
      ∀ b ∈ ParentReader.findParents parentOf accessMap, a.2.1 ≠ b.1 := by
    intro a ha b hb
    obtain ⟨a0, ha0f, rfl⟩ := List.mem_map.mp ha
    obtain ⟨b0, hb0f, rfl⟩ := List.mem_map.mp hb
    obtain ⟨ha0m, ha0P⟩ := List.mem_filter.mp ha0f
    obtain ⟨hb0m, hb0P⟩ := List.mem_filter.mp hb0f
    exact hpar a0 ha0m (of_decide_eq_true ha0P) b0 hb0m
      (of_decide_eq_true hb0P)
  refine ⟨?_, ?_, ?_, fun perm => rfl⟩
  · intro k modes hget hc hd
    have hknot : k ∉ (ParentReader.findParents parentOf accessMap).map
        Prod.fst := by
      rw [ParentReader.findParents_keys]
      intro hk
      obtain ⟨e, hef, hek⟩ := List.mem_map.mp hk
      obtain ⟨hem, heP⟩ := List.mem_filter.mp hef
      obtain ⟨k', modes'⟩ := e
      simp only at hek
      subst hek
      have hgm : getA accessMap k' = some modes' :=
        getA_eq_of_mem_nodup hem hnd
      rw [hget] at hgm
      injection hgm with hgm
      subst hgm
      rcases of_decide_eq_true heP with h | h
      · exact hc h
      · exact hd h
    rw [hout]
    by_cases hemp : (ParentReader.findParents parentOf accessMap).isEmpty
    · rw [if_pos hemp]
      have hnil : ParentReader.findParents parentOf accessMap = [] := by
        simpa [List.isEmpty_iff] using hemp
      rw [hnil]
      simp only [List.map_nil, ParentReader.updateAccessMap_nil_nil]
    · rw [if_neg hemp]
      exact ParentReader.loop_getA_not_mem _ _ _ hknot
  · intro c modes hget hcd
    have hmem_am : (c, modes) ∈ accessMap := mem_of_getA hget
    have hmem_f : (c, modes) ∈ accessMap.filter
        fun e => Mode.create ∈ e.2 ∨ Mode.delete ∈ e.2 :=
      List.mem_filter.mpr ⟨hmem_am, decide_eq_true hcd⟩
    have hmem_cm :
        (c, (parentOf c,
          (if Mode.create ∈ modes then {Mode.append} else (∅ : Finset Mode)) ∪
            (if Mode.delete ∈ modes then {Mode.write} else (∅ : Finset Mode))))
          ∈ ParentReader.findParents parentOf accessMap :=
      List.mem_map.mpr ⟨(c, modes), hmem_f, rfl⟩
    have hemp : ¬(ParentReader.findParents parentOf accessMap).isEmpty := by
      intro h
      rw [List.isEmpty_iff] at h
      rw [h] at hmem_cm
      simp at hmem_cm
    rw [hout, if_neg hemp]
    exact ParentReader.loop_getA_child _ _
      (ParentReader.findParents_keys_nodup _ _ hnd) hpcm _ hmem_cm
  · intro perm cp
    refine ⟨?_, ?_, ?_, ?_, rfl, rfl, rfl, rfl⟩
    · rw [ParentReader.updateGroup_create, ParentReader.jsAnd_eq_some_true]
      simp
    · rw [ParentReader.updateGroup_delete, ParentReader.jsAnd_eq_some_true,
        ParentReader.jsAnd_eq_some_true]
      simp [and_assoc]
    · intro hcf
      rw [ParentReader.updateGroup_create, hcf]
      constructor
      · rcases cp.append with _ | b
        · simp [ParentReader.jsAnd]
        · cases b <;> simp [ParentReader.jsAnd]
      · intro hap
        rcases hap' : cp.append with _ | b
        · exact absurd hap' hap
        · cases b <;> simp [ParentReader.jsAnd]
    · intro hdf
      rw [ParentReader.updateGroup_delete, hdf]
      constructor
      · rcases ParentReader.jsAnd (perm.getD {}).write cp.write with _ | b
        · simp [ParentReader.jsAnd]
        · cases b <;> simp [ParentReader.jsAnd]
      · intro hw
        rcases hw' : ParentReader.jsAnd (perm.getD {}).write cp.write
            with _ | b
        · exact absurd hw' hw
        · cases b <;> simp [ParentReader.jsAnd]

/-- Witness for C3 at a concrete input: `/c` requires `create` and
`delete`; the inner reader grants the parent `append` and `write` and the
child `write`; the child verdict keeps `write = true` and gains
`create = true` and `delete = true`. -/
theorem C3_parent_container_witness :
    getA (ParentReader.handle (fun _ => "/")
        (fun _ =>
          [("/c", { pub := some { write := some true } }),
           ("/", { pub := some { append := some true, write := some true } })])
        [("/c", ({Mode.create, Mode.delete} : Finset Mode))]) "/c" =
      some { pub := some ({ write := some true, create := some true, delete := some true } : Permission) } := by
  have h := (C3_parent_container (fun _ => "/")
    (fun _ =>
      [("/c", { pub := some { write := some true } }),
       ("/", { pub := some { append := some true, write := some true } })])
    [("/c", ({Mode.create, Mode.delete} : Finset Mode))]
    (by decide) (by decide)).2.1 "/c"
    ({Mode.create, Mode.delete} : Finset Mode) (by decide) (by decide)
  rw [h]
  decide

/-- Witness for C2 at a concrete input: merging `read = true` with
`read = false` for the same identifier and group yields `false`, matching
the specification merge of the two cells. -/
theorem C2_union_merge_witness :
    UnionReader.cellOf (UnionReader.combine
        [[("http://test.com/foo", { pub := some { read := some true } })],
         [("http://test.com/foo", { pub := some { read := some false } })]])
      "http://test.com/foo" CredentialGroup.public Mode.read = some false := by
  rw [C2_union_merge.1
    [[("http://test.com/foo", { pub := some { read := some true } })],
     [("http://test.com/foo", { pub := some { read := some false } })]]
    "http://test.com/foo" CredentialGroup.public Mode.read (by decide)]
  decide

end CSS
